import Mathlib

/-!
# go-importalias: alias-consistency check

A shallow embedding of `importalias.Run` (importalias/importalias.go) and of the
project import registry it drives, together with theorems about the report that
`Run` writes and the outcome it returns.

Conventions of the embedding:

* a Go `map[string]T` is an association list `List (String × T)` with pairwise
  distinct keys; `range` visits it in list order, which stands for the arbitrary
  iteration order of the Go map;
* `sort.Strings` is a sort by the lexicographic order of the code points of the
  strings, which is the order of their UTF-8 bytes;
* the writer `w` is the list of the `fmt.Fprintf` calls made on it, each call kept
  with its arguments (`Write`); the bytes written are the concatenation of the
  rendered calls (`Result.output`);
* an `error` is `Option String`: `none` is `nil`, `some msg` an error whose
  `Error()` text is `msg`;
* the file system and the Go parser are the environment `Env`.
-/

namespace Importalias

/-! ## Data model -/

/-- The `Line` and `Column` of a `token.Position`, the two fields `Run` prints. -/
structure Position where
  Line : Nat
  Column : Nat
deriving DecidableEq, Repr

/-- Modelled from the spec: the alias token of an import occurrence (§3 of the
specification; the declaration is not part of the available sources). -/
inductive AliasToken
  | explicit (name : String)
  | default
  | blank
  | dotImport
deriving DecidableEq, Repr

/-- The text of an alias token as the import declaration spells it. -/
def AliasToken.name : AliasToken → String
  | .explicit a => a
  | .default => ""
  | .blank => "_"
  | .dotImport => "."

/-- Modelled from the spec: one import occurrence with its file, line, column,
alias and import path (§3; the declaration is not part of the available sources). -/
structure ImportOccurrence where
  file : String
  Pos : Position
  Alias : AliasToken
  ImportPath : String
deriving DecidableEq, Repr

/-- The `AliasInfo` values held by `ImportsToAliases()`: an alias and its
`Occurrences`, a Go map from file path to the position of the import in that file
(`Run` ranges over it with the file as key and reads `Line` and `Column` of the
value). -/
structure AliasInfo where
  Alias : String
  Occurrences : List (String × Position)
deriving DecidableEq, Repr

/-- The `AliasSpec` values held by `FilesToImportAliases()`; `Run` reads
`ImportPath`, `Alias` and `Pos`. -/
structure AliasSpec where
  ImportPath : String
  Alias : AliasToken
  Pos : Position
deriving DecidableEq, Repr

/-- The result of `GetAliasStatus`; `Run` reads `OK` and `Recommendation`. -/
structure AliasStatus where
  OK : Bool
  Recommendation : String
deriving DecidableEq, Repr

/-- The registry: every recorded occurrence, in the order of recording. -/
abbrev Registry := List ImportOccurrence

/-! ## Library functions -/

/-- The order of `sort.Strings`: lexicographic on code points. -/
def strLe (a b : String) : Prop := a.data ≤ b.data

/-- The strict lexicographic order on strings. -/
def strLt (a b : String) : Prop := a.data < b.data

instance : DecidableRel strLt := fun a b => inferInstanceAs (Decidable (a.data < b.data))

instance : DecidableRel strLe := fun a b => inferInstanceAs (Decidable (a.data ≤ b.data))

/-- Go `sort.Strings`. -/
def sortStrings (l : List String) : List String := l.insertionSort strLe

/-- Go `%q` on an identifier: the identifier between double quotes (an identifier
consists of letters, digits and underscores, none of which `%q` escapes). -/
def quote (s : String) : String := "\"" ++ s ++ "\""

/-- Go `m[k]` on a map whose values are slices: the value stored under `k`, the
nil slice when `k` is not a key. -/
def mapGet {α : Type} : List (String × List α) → String → List α
  | [], _ => []
  | (k', v) :: rest, k => if k' = k then v else mapGet rest k

/-- Go `m[k] = v`: replaces the value stored under `k`, or adds the key. -/
def mapInsert {α : Type} : List (String × α) → String → α → List (String × α)
  | [], k, v => [(k, v)]
  | (k', v') :: rest, k, v =>
    if k' = k then (k, v) :: rest else (k', v') :: mapInsert rest k v

/-! ## The project import registry -/

/-- Modelled from the spec: the distinct explicit aliases under which `importPath`
is imported (§3, §4.1; `projectImportInfo` is not part of the available sources).
Only `Explicit` tokens take part. -/
def explicitAliases (reg : Registry) (importPath : String) : List String :=
  (reg.filterMap (fun o =>
    if o.ImportPath = importPath then
      match o.Alias with
      | .explicit a => some a
      | _ => none
    else none)).dedup

/-- Modelled from the spec: the occurrence count of alias `a` for `importPath`,
`counts[alias] = |occurrences with that alias|` (§4.2 step 1): every recorded
occurrence counts, also a second one of the same file (§4.1 "duplicates are
permitted and simply aggregate"). -/
def aliasCount (reg : Registry) (importPath a : String) : Nat :=
  (reg.filter (fun o => o.ImportPath = importPath ∧ o.Alias = AliasToken.explicit a)).length

/-- Modelled from the spec: the `Occurrences` map of alias `a` for `importPath`
(§4.1 `AliasesForPath`, §4.3 "distinct file among that alias's occurrences"). `Run`
uses it as a Go map from file path to position (importalias.go:67-76), so it has
one entry per file in which the path is imported under that alias. Which position
the entry of a file holds when the file imports the path under the alias more than
once is not fixed by the spec; the model keeps the one recorded last, as a Go map
assignment does, and no theorem below depends on that choice. -/
def occurrencesOf (reg : Registry) (importPath a : String) : List (String × Position) :=
  reg.foldl (fun m o =>
    if o.ImportPath = importPath ∧ o.Alias = .explicit a then mapInsert m o.file o.Pos else m) []

/-- Modelled from the spec: the order in which `ImportsToAliases()` lists the
aliases of import path `importPath`: descending occurrence count, ties broken
alphabetically by alias (§4.3). -/
def aliasOrder (reg : Registry) (importPath : String) (x y : AliasInfo) : Prop :=
  aliasCount reg importPath y.Alias < aliasCount reg importPath x.Alias ∨
    (aliasCount reg importPath x.Alias = aliasCount reg importPath y.Alias ∧
      strLe x.Alias y.Alias)

instance (reg : Registry) (importPath : String) : DecidableRel (aliasOrder reg importPath) :=
  fun x y =>
    inferInstanceAs (Decidable
      (aliasCount reg importPath y.Alias < aliasCount reg importPath x.Alias ∨
        (aliasCount reg importPath x.Alias = aliasCount reg importPath y.Alias ∧
          strLe x.Alias y.Alias)))

/-- Modelled from the spec: `AliasesForPath(path)` (§4.1, §4.3): one `AliasInfo`
per distinct explicit alias of the path, in descending order of occurrence count,
ties broken alphabetically by alias. -/
def aliasesForPath (reg : Registry) (importPath : String) : List AliasInfo :=
  ((explicitAliases reg importPath).map
    (fun a => AliasInfo.mk a (occurrencesOf reg importPath a))).insertionSort
      (aliasOrder reg importPath)

/-- Modelled from the spec: `ImportsToAliases()`, the map from import path to the
aliases used for it (§3 "by import path → by explicit alias"; `projectImportInfo`
is not part of the available sources). -/
def ImportsToAliases (reg : Registry) : List (String × List AliasInfo) :=
  ((reg.map (fun o => o.ImportPath)).dedup).map (fun p => (p, aliasesForPath reg p))

/-- Modelled from the spec: `FilesToImportAliases()`, the map from file to its
occurrences in encounter order (§3 "by file", §4.1 `OccurrencesByFile`). -/
def FilesToImportAliases (reg : Registry) : List (String × List AliasSpec) :=
  ((reg.map (fun o => o.file)).dedup).map (fun f =>
    (f, (reg.filter (fun o => o.file = f)).map (fun o => AliasSpec.mk o.ImportPath o.Alias o.Pos)))

/-- Modelled from the spec: the alias list of the tie message (§4.2 step 4), with
the punctuation of the expected lines of `TestImportAliasError`
(importalias_test.go:200, 336): all but the last joined by `", "`, the last
attached with `" and "` and no comma, as in `"bar" and "foo"` and
`"bar", "baz" and "foo"`. -/
def englishList : List String → String
  | [] => ""
  | [a] => a
  | a :: b :: rest =>
    ", ".intercalate ((a :: b :: rest).dropLast) ++ " and " ++ (a :: b :: rest).getLast (by simp)

/-- Modelled from the spec: the count phrase of the tie message (§4.2 step 4):
`once` for 1, else `<n> times`. -/
def countPhrase (n : Nat) : String := if n = 1 then "once" else toString n ++ " times"

/-- Modelled from the spec: the tie recommendation (§4.2 step 4) over the
alphabetically sorted aliases `names` and the tied count `n`. The sentence ends
without a period: `Run` supplies it in its format string. The spec gives one count
phrase for the whole list and leaves open what is said when the listed aliases do
not all have the same count (§9); the model then names the count of the tied
aliases, the maximum. -/
def noConsensus (names : List String) (n : Nat) : String :=
  "No consensus alias exists for this import in the project (" ++
    englishList (names.map quote) ++ " are " ++
    (if names.length = 2 then "both" else "all") ++ " used " ++ countPhrase n ++ " each)"

/-- Modelled from the spec: the recommendation for a path with a consensus alias
(§4.2 step 3), without its final period, which `Run` supplies. -/
def useAlias (consensus : String) : String := "Use alias " ++ quote consensus ++ " instead"

/-- Modelled from the spec: the largest occurrence count among the aliases of a
path (§4.2 step 2). -/
def maxCount (reg : Registry) (importPath : String) (aliases : List AliasInfo) : Nat :=
  (aliases.map (fun x => aliasCount reg importPath x.Alias)).foldr max 0

/-- Modelled from the spec: the aliases whose occurrence count is the maximum
(§4.2 step 2). -/
def winners (reg : Registry) (importPath : String) (aliases : List AliasInfo) :
    List AliasInfo :=
  aliases.filter (fun x => aliasCount reg importPath x.Alias = maxCount reg importPath aliases)

/-- Modelled from the spec: `GetAliasStatus(alias, importPath)` (§4.2;
`projectImportInfo` is not part of the available sources). A token that is not
`Explicit` is OK; a path without conflict is OK; the aliases of the path are
ranked by their occurrence counts; with a single winner the winner is OK and every
other alias is told to use it; with several winners every alias gets the tie
message, which lists all aliases of the path alphabetically. -/
def GetAliasStatus (reg : Registry) (a : AliasToken) (importPath : String) : AliasStatus :=
  match a with
  | .explicit name =>
    let aliases := aliasesForPath reg importPath
    if aliases.length ≤ 1 then AliasStatus.mk true ""
    else
      match winners reg importPath aliases with
      | [w] =>
        if name = w.Alias then AliasStatus.mk true ""
        else AliasStatus.mk false (useAlias w.Alias)
      | _ =>
        AliasStatus.mk false
          (noConsensus (sortStrings (aliases.map (fun x => x.Alias)))
            (maxCount reg importPath aliases))
  | _ => AliasStatus.mk true ""

/-! ## The environment of a run -/

/-- The three file lists of a `build.Package` that `Run` reads. -/
structure Package where
  GoFiles : List String
  TestGoFiles : List String
  XTestGoFiles : List String

/-- One import declaration as the extractor returns it: position, alias token
and import path (§6 "Import Extractor contract"). -/
structure ImportDecl where
  Pos : Position
  Alias : AliasToken
  ImportPath : String
deriving DecidableEq, Repr

/-- What a run reads from outside: `build.ImportDir` (its error is ignored by
`Run`), `path.Join`, and the import extractor, which returns the imports of a file
in source order or fails with a message. -/
structure Env where
  ImportDir : String → Package
  Join : String → String → String
  parseImports : String → Except String (List ImportDecl)

/-- What `Run` does to the world before reporting, in order. -/
inductive Event
  | importDir (pkgPath : String)
  | addFile (file : String)
deriving DecidableEq, Repr

/-- One `fmt.Fprintf` call of `Run` on the writer, with its arguments. -/
inductive Write
  | header (importPath : String)
  | group (Alias : String) (numFilesMsg : String) (files : List String)
  | violation (file : String) (line column : Nat) (Alias : String) (importPath : String)
      (recommendation : String)
deriving DecidableEq, Repr

/-- The text a `fmt.Fprintf` call of `Run` writes (importalias.go:64, 78, 98). -/
def Write.render : Write → String
  | .header k => k ++ " is imported using multiple different aliases:\n"
  | .group a msg files => "\t" ++ a ++ " " ++ msg ++ ":\n\t\t" ++ "\n\t\t".intercalate files ++ "\n"
  | .violation f l c a p r =>
    f ++ ":" ++ toString l ++ ":" ++ toString c ++ ": uses alias " ++ quote a ++
      " to import package " ++ p ++ ". " ++ r ++ ".\n"

/-- The outcome of `Run`: the calls made on the writer, the returned error, and the
trace of package loads and file extractions. -/
structure Result where
  writes : List Write
  err : Option String
  trace : List Event
deriving DecidableEq, Repr

/-- The bytes written to the writer. -/
def Result.output (r : Result) : String := String.join (r.writes.map Write.render)

/-! ## Run -/

/-- Modelled from the spec: `AddImportAliasesFromFile(file)` (§2, §4.1 `Record`;
not part of the available sources): the extractor is run on the file and every
occurrence it returns is recorded, in order; an extraction failure is returned. -/
def AddImportAliasesFromFile (env : Env) (reg : Registry) (file : String) :
    Except String Registry :=
  match env.parseImports file with
  | .error e => .error e
  | .ok decls => .ok (reg ++ decls.map (fun d => ImportOccurrence.mk file d.Pos d.Alias d.ImportPath))

/-- The file names of a package in processing order (importalias.go:33-37): the
three lists appended, then sorted as a whole. -/
def goFilesForPkg (env : Env) (pkgPath : String) : List String :=
  sortStrings ((env.ImportDir pkgPath).GoFiles ++ (env.ImportDir pkgPath).TestGoFiles ++
    (env.ImportDir pkgPath).XTestGoFiles)

/-- `errors.Wrapf(err, "failed to determine imports in file %s", currFile)`. -/
def wrapErr (err currFile : String) : String :=
  "failed to determine imports in file " ++ currFile ++ ": " ++ err

/-- The inner loop of `Run` (importalias.go:39-44). -/
def loadFiles (env : Env) (pkgPath : String) :
    List String → Registry → List Event × Except String Registry
  | [], reg => ([], .ok reg)
  | currGoFileName :: rest, reg =>
    match AddImportAliasesFromFile env reg (env.Join pkgPath currGoFileName) with
    | .error err =>
      ([Event.addFile (env.Join pkgPath currGoFileName)],
        .error (wrapErr err (env.Join pkgPath currGoFileName)))
    | .ok reg' =>
      (Event.addFile (env.Join pkgPath currGoFileName) :: (loadFiles env pkgPath rest reg').1,
        (loadFiles env pkgPath rest reg').2)

/-- The outer loop of `Run` (importalias.go:30-45). -/
def loadPkgs (env : Env) : List String → Registry → List Event × Except String Registry
  | [], reg => ([], .ok reg)
  | pkgPath :: rest, reg =>
    match loadFiles env pkgPath (goFilesForPkg env pkgPath) reg with
    | (tr, .error e) => (Event.importDir pkgPath :: tr, .error e)
    | (tr, .ok reg') =>
      (Event.importDir pkgPath :: tr ++ (loadPkgs env rest reg').1, (loadPkgs env rest reg').2)

/-- The sorted import paths with more than one alias (importalias.go:47-57). -/
def pkgsWithMultipleAliases (importsToAliases : List (String × List AliasInfo)) : List String :=
  sortStrings ((importsToAliases.filter (fun kv => decide (kv.2.length > 1))).map (fun kv => kv.1))

/-- The text of one occurrence, `fmt.Sprintf("%s:%d:%d", k, v.Line, v.Column)`
(importalias.go:68). -/
def occurrenceLine (file : String) (pos : Position) : String :=
  file ++ ":" ++ toString pos.Line ++ ":" ++ toString pos.Column

/-- The rendered occurrences of one alias, sorted (importalias.go:66-70). -/
def occurrenceLines (info : AliasInfo) : List String :=
  sortStrings (info.Occurrences.map (fun kv => occurrenceLine kv.1 kv.2))

/-- The file-count phrase of an alias group (importalias.go:72-77). -/
def numFilesMsg (info : AliasInfo) : String :=
  if info.Occurrences.length = 1 then "(1 file)"
  else "(" ++ toString info.Occurrences.length ++ " files)"

/-- The write for one alias group (importalias.go:65-79). -/
def groupWrite (info : AliasInfo) : Write :=
  Write.group info.Alias (numFilesMsg info) (occurrenceLines info)

/-- The verbose report (importalias.go:63-80). -/
def verboseWrites (importsToAliases : List (String × List AliasInfo)) (pkgs : List String) :
    List Write :=
  pkgs.flatMap (fun k => Write.header k :: (mapGet importsToAliases k).map groupWrite)

/-- The body of the default-mode loop for one occurrence (importalias.go:91-98). -/
def violationOf (reg : Registry) (pkgs : List String) (file : String) (s : AliasSpec) :
    Option Write :=
  if s.ImportPath ∉ pkgs then none
  else if (GetAliasStatus reg s.Alias s.ImportPath).OK then none
  else some (Write.violation file s.Pos.Line s.Pos.Column s.Alias.name s.ImportPath
    (GetAliasStatus reg s.Alias s.ImportPath).Recommendation)

/-- The default-mode report (importalias.go:82-100). -/
def defaultWrites (reg : Registry) (pkgs : List String) : List Write :=
  (sortStrings ((FilesToImportAliases reg).map (fun kv => kv.1))).flatMap (fun file =>
    (mapGet (FilesToImportAliases reg) file).filterMap (violationOf reg pkgs file))

/-- The report of `Run` once every file is loaded (importalias.go:47-102). -/
def report (reg : Registry) (verbose : Bool) : List Write × Option String :=
  if (pkgsWithMultipleAliases (ImportsToAliases reg)).length = 0 then ([], none)
  else if verbose then
    (verboseWrites (ImportsToAliases reg) (pkgsWithMultipleAliases (ImportsToAliases reg)), some "")
  else (defaultWrites reg (pkgsWithMultipleAliases (ImportsToAliases reg)), some "")

/-- `Run(pkgPaths, verbose, w)` (importalias.go:28-103). -/
def Run (env : Env) (pkgPaths : List String) (verbose : Bool) : Result :=
  match loadPkgs env pkgPaths [] with
  | (tr, .error e) => Result.mk [] (some e) tr
  | (tr, .ok reg) => Result.mk (report reg verbose).1 (report reg verbose).2 tr

/-! ## Vocabulary of the claims -/

/-- Import path `p` is imported under the explicit alias `a` somewhere. -/
def ImportedAs (reg : Registry) (p a : String) : Prop :=
  ∃ o ∈ reg, o.ImportPath = p ∧ o.Alias = AliasToken.explicit a

instance (reg : Registry) (p a : String) : Decidable (ImportedAs reg p a) :=
  inferInstanceAs (Decidable (∃ o ∈ reg, o.ImportPath = p ∧ o.Alias = AliasToken.explicit a))

/-- Import path `p` has a conflict: two distinct explicit aliases. -/
def Conflicted (reg : Registry) (p : String) : Prop :=
  ∃ a b, a ≠ b ∧ ImportedAs reg p a ∧ ImportedAs reg p b

/-- The files of all packages in the order `Run` reaches them. -/
def filesInOrder (env : Env) (pkgPaths : List String) : List String :=
  pkgPaths.flatMap (fun p => (goFilesForPkg env p).map (env.Join p))

/-- The occurrences a file contributes to the registry. -/
def recordedOf (env : Env) (file : String) : Registry :=
  match env.parseImports file with
  | .ok decls => decls.map (fun d => ImportOccurrence.mk file d.Pos d.Alias d.ImportPath)
  | .error _ => []

/-- The occurrences of all files, in recording order. -/
def recorded (env : Env) (pkgPaths : List String) : Registry :=
  (filesInOrder env pkgPaths).flatMap (recordedOf env)

/-- The trace of a run in which no extraction fails. -/
def fullTrace (env : Env) (pkgPaths : List String) : List Event :=
  pkgPaths.flatMap (fun p =>
    Event.importDir p :: (goFilesForPkg env p).map (fun n => Event.addFile (env.Join p n)))

/-- The file of an extraction event. -/
def Event.file? : Event → Option String
  | .importDir _ => none
  | .addFile f => some f

/-- Whether the extractor succeeds on a file. -/
def extractOK (env : Env) (f : String) : Bool :=
  match env.parseImports f with
  | .ok _ => true
  | .error _ => false

/-- Every file of every package extracts successfully. -/
def ExtractsAll (env : Env) (pkgPaths : List String) : Prop :=
  ∀ f ∈ filesInOrder env pkgPaths, extractOK env f = true

instance (env : Env) (pkgPaths : List String) : Decidable (ExtractsAll env pkgPaths) :=
  inferInstanceAs (Decidable (∀ f ∈ filesInOrder env pkgPaths, extractOK env f = true))

/-- The files of the registry in ascending order, each once
(importalias.go:83-87). -/
def sourceFiles (reg : Registry) : List String :=
  sortStrings ((reg.map (fun o => o.file)).dedup)

/-- The recorded occurrences in report order: files ascending, and within one
file the order of recording. -/
def byFile (reg : Registry) : Registry :=
  (sourceFiles reg).flatMap (fun f => reg.filter (fun o => o.file = f))

/-- The default-mode line of an occurrence, if it gets one. -/
def lineOf (reg : Registry) (o : ImportOccurrence) : Option Write :=
  violationOf reg (pkgsWithMultipleAliases (ImportsToAliases reg)) o.file
    (AliasSpec.mk o.ImportPath o.Alias o.Pos)

/-- Whether a write is a default-mode line about import path `P`. -/
def Write.isAbout (P : String) : Write → Bool
  | .violation _ _ _ _ p _ => decide (p = P)
  | _ => false

/-- Whether an occurrence imports `P` under an explicit alias other than `A`. -/
def usesOtherAlias (P A : String) (o : ImportOccurrence) : Bool :=
  match o.Alias with
  | .explicit b => decide (o.ImportPath = P ∧ b ≠ A)
  | _ => false

/-- Whether an occurrence imports `P` under an explicit alias. -/
def usesExplicitAlias (P : String) (o : ImportOccurrence) : Bool :=
  match o.Alias with
  | .explicit _ => decide (o.ImportPath = P)
  | _ => false

/-- An import declaration with an explicit alias. -/
def aliased (line column : Nat) (a importPath : String) : ImportDecl :=
  ImportDecl.mk (Position.mk line column) (AliasToken.explicit a) importPath

/-- An environment given by tables: the regular Go files of each package directory
and the imports of each file; a file outside the table fails to extract. -/
def tableEnv (pkgs : List (String × List String)) (srcs : List (String × List ImportDecl)) : Env where
  ImportDir := fun p =>
    match pkgs.lookup p with
    | some names => Package.mk names [] []
    | none => Package.mk [] [] []
  Join := fun p f => p ++ "/" ++ f
  parseImports := fun f =>
    match srcs.lookup f with
    | some decls => Except.ok decls
    | none => Except.error ("open " ++ f ++ ": no such file or directory")

/-- The project of the test "error if multiple files import the same package
using a different alias" (importalias_test.go:181-197). -/
def tieEnv : Env :=
  tableEnv [("proj", ["foo.go"]), ("proj/bar", ["bar.go"])]
    [("proj/foo.go", [aliased 1 22 "foo" "\"fmt\""]),
     ("proj/bar/bar.go", [aliased 1 21 "bar" "\"fmt\""])]

/-- The project of the test "if multiple files import the same package using a
different alias but one is more common, suggest the more common one"
(importalias_test.go:271-292). -/
def commonEnv : Env :=
  tableEnv [("proj", ["foo.go"]), ("proj/bar", ["bar.go"]), ("proj/baz", ["baz.go"])]
    [("proj/foo.go", [aliased 1 22 "foo" "\"fmt\""]),
     ("proj/bar/bar.go", [aliased 1 21 "bar" "\"fmt\""]),
     ("proj/baz/baz.go", [aliased 1 21 "foo" "\"fmt\""])]

/-- The project of the test "verify correct message if there are more than 2
aliases used for an import" (importalias_test.go:312-333). -/
def threeEnv : Env :=
  tableEnv [("proj", ["foo.go"]), ("proj/bar", ["bar.go"]), ("proj/baz", ["baz.go"])]
    [("proj/foo.go", [aliased 1 22 "foo" "\"fmt\""]),
     ("proj/bar/bar.go", [aliased 1 21 "bar" "\"fmt\""]),
     ("proj/baz/baz.go", [aliased 1 21 "baz" "\"fmt\""])]

/-- The package arguments of the three-package tests. -/
def threePkgs : List String := ["proj", "proj/bar", "proj/baz"]

/-- The project of the test "no error if multiple files import same package with
one using alias and other using _", with an unaliased and a dot import added
(importalias_test.go:77-132). -/
def cleanEnv : Env :=
  tableEnv [("proj", ["foo.go"]), ("proj/bar", ["bar.go", "baz.go", "qux.go"])]
    [("proj/foo.go", [aliased 1 22 "foo" "\"fmt\""]),
     ("proj/bar/bar.go", [ImportDecl.mk (Position.mk 1 21) AliasToken.blank "\"fmt\""]),
     ("proj/bar/baz.go", [ImportDecl.mk (Position.mk 1 21) AliasToken.default "\"fmt\""]),
     ("proj/bar/qux.go", [ImportDecl.mk (Position.mk 1 21) AliasToken.dotImport "\"fmt\"",
        aliased 2 8 "foo" "\"io\""])]

/-- A project in which the second of three files of the first package cannot be
read. -/
def failEnv : Env :=
  tableEnv [("proj", ["c.go", "a.go", "b.go"]), ("proj/z", ["z.go"])]
    [("proj/a.go", [aliased 1 22 "foo" "\"fmt\""]),
     ("proj/c.go", [aliased 1 22 "bar" "\"fmt\""]),
     ("proj/z/z.go", [aliased 1 22 "baz" "\"fmt\""])]

/-- The project of the test "error if multiple files import the same package
using a different alias for multiple packages" (importalias_test.go:217-244); the
packages are given in an order that is not the order of the report. -/
def multiEnv : Env :=
  tableEnv [("proj", ["foo.go"]), ("proj/bar", ["bar.go"]), ("proj/baz", ["baz.go"]),
      ("proj/other", ["other.go"])]
    [("proj/foo.go", [aliased 1 22 "foo" "\"fmt\""]),
     ("proj/bar/bar.go", [aliased 1 21 "bar" "\"fmt\""]),
     ("proj/baz/baz.go", [aliased 1 21 "baz" "\"io\""]),
     ("proj/other/other.go", [aliased 1 23 "other" "\"io\""])]

/-- The package arguments of the multi-package test, the empty path included. -/
def multiPkgs : List String := ["proj/other", "proj", "proj/baz", "proj/bar", ""]

/-- A package with a file whose path is an initial segment of the path of another
file: `b.go` and `b.go.go`, both importing `"fmt"` as `foo`. -/
def nestedEnv : Env :=
  tableEnv [("a", ["b.go", "b.go.go", "c.go"])]
    [("a/b.go", [aliased 1 21 "foo" "\"fmt\""]),
     ("a/b.go.go", [aliased 1 21 "foo" "\"fmt\""]),
     ("a/c.go", [aliased 1 21 "bar" "\"fmt\""])]

/-- The files in which `importPath` is imported under the explicit alias `a`. -/
def filesOf (reg : Registry) (importPath a : String) : List String :=
  ((reg.filter (fun o => o.ImportPath = importPath ∧ o.Alias = AliasToken.explicit a)).map
    (fun o => o.file)).dedup

/-- A package with regular, test and external-test files, none of which imports
anything. -/
def mixedEnv : Env where
  ImportDir := fun p =>
    if p = "proj" then Package.mk ["main.go", "z.go"] ["a_test.go"] ["b_test.go"]
    else Package.mk [] [] []
  Join := fun p f => p ++ "/" ++ f
  parseImports := fun _ => Except.ok []

/-- The package path yields no Go source file. -/
def NoGoFiles (env : Env) (q : String) : Prop :=
  (env.ImportDir q).GoFiles = [] ∧ (env.ImportDir q).TestGoFiles = [] ∧
    (env.ImportDir q).XTestGoFiles = []

/-- A package in which `x.go` imports `"fmt"` as `foo` twice, at 1:21 and at 2:8,
and `y.go` and `z.go` import it as `bar`: two occurrences of each alias, `foo` in
one file and `bar` in two. -/
def dupEnv : Env :=
  tableEnv [("a", ["x.go", "y.go", "z.go"])]
    [("a/x.go", [aliased 1 21 "foo" "\"fmt\"", aliased 2 8 "foo" "\"fmt\""]),
     ("a/y.go", [aliased 1 21 "bar" "\"fmt\""]),
     ("a/z.go", [aliased 1 21 "bar" "\"fmt\""])]

/-- The report of `Run` (importalias.go:47-102) on the two maps as the registry
hands them over, `importsToAliases` and `filesToAliases`, whatever the order in
which their entries are iterated. -/
def reportOn (reg : Registry) (importsToAliases : List (String × List AliasInfo))
    (filesToAliases : List (String × List AliasSpec)) (verbose : Bool) :
    List Write × Option String :=
  if (pkgsWithMultipleAliases importsToAliases).length = 0 then ([], none)
  else if verbose then
    (verboseWrites importsToAliases (pkgsWithMultipleAliases importsToAliases), some "")
  else
    ((sortStrings (filesToAliases.map (fun kv => kv.1))).flatMap (fun file =>
      (mapGet filesToAliases file).filterMap
        (violationOf reg (pkgsWithMultipleAliases importsToAliases) file)), some "")

/-- Two alias entries that are the same alias with the same `Occurrences` map,
the entries of the map in any order. -/
def SameAlias (x y : AliasInfo) : Prop :=
  x.Alias = y.Alias ∧ x.Occurrences.Perm y.Occurrences

/-- Two entries of the map from import path to aliases that are the same path with
the same slice of aliases, each `Occurrences` map in any order. -/
def SameEntry (e e' : String × List AliasInfo) : Prop :=
  e.1 = e'.1 ∧ List.Forall₂ SameAlias e.2 e'.2

/-- The map `m'` is the map `m` iterated in another order: its entries permuted,
and the `Occurrences` map of every alias permuted. -/
def SameImports (m m' : List (String × List AliasInfo)) : Prop :=
  ∃ mid, m.Perm mid ∧ List.Forall₂ SameEntry mid m'

/-! # Theorems -/

/-! ## Order and sorting -/

theorem strLe_refl (a : String) : strLe a a := le_refl a.data

theorem strLe_total (a b : String) : strLe a b ∨ strLe b a := le_total a.data b.data

theorem strLe_trans {a b c : String} (h₁ : strLe a b) (h₂ : strLe b c) : strLe a c :=
  le_trans (α := List Char) h₁ h₂

theorem strLe_antisymm {a b : String} (h₁ : strLe a b) (h₂ : strLe b a) : a = b :=
  String.ext (le_antisymm (α := List Char) h₁ h₂)

theorem strLt_iff {a b : String} : strLt a b ↔ strLe a b ∧ a ≠ b := by
  unfold strLt strLe
  rw [lt_iff_le_and_ne]
  constructor
  · rintro ⟨h, hne⟩
    exact ⟨h, fun e => hne (by rw [e])⟩
  · rintro ⟨h, hne⟩
    exact ⟨h, fun e => hne (String.ext e)⟩

theorem not_strLt_iff {a b : String} : ¬ strLt a b ↔ strLe b a := by
  unfold strLt strLe
  exact not_lt

instance : IsTotal String strLe := ⟨strLe_total⟩
instance : IsTrans String strLe := ⟨fun _ _ _ => strLe_trans⟩
instance : IsAntisymm String strLe := ⟨fun _ _ => strLe_antisymm⟩

theorem sortStrings_perm (l : List String) : (sortStrings l).Perm l :=
  List.perm_insertionSort strLe l

theorem sortStrings_sorted (l : List String) : (sortStrings l).Sorted strLe :=
  List.sorted_insertionSort strLe l

theorem mem_sortStrings {l : List String} {x : String} : x ∈ sortStrings l ↔ x ∈ l :=
  (sortStrings_perm l).mem_iff

theorem sortStrings_nodup {l : List String} (h : l.Nodup) : (sortStrings l).Nodup :=
  (sortStrings_perm l).nodup_iff.mpr h

/-- A sorted list without repetition is strictly ascending. -/
theorem sortStrings_strict {l : List String} (h : l.Nodup) :
    (sortStrings l).Pairwise strLt := by
  have hs : (sortStrings l).Pairwise strLe := sortStrings_sorted l
  have hn : (sortStrings l).Pairwise (· ≠ ·) := sortStrings_nodup h
  exact (hs.and hn).imp (fun h => strLt_iff.mpr h)

theorem sortStrings_eq_of_perm {l₁ l₂ : List String} (h : l₁.Perm l₂) :
    sortStrings l₁ = sortStrings l₂ :=
  List.eq_of_perm_of_sorted (((sortStrings_perm l₁).trans h).trans (sortStrings_perm l₂).symm)
    (sortStrings_sorted l₁) (sortStrings_sorted l₂)

theorem sortStrings_length (l : List String) : (sortStrings l).length = l.length :=
  List.length_insertionSort strLe l

/-! ## The registry views -/

theorem aliasOrder_total (reg : Registry) (p : String) (x y : AliasInfo) :
    aliasOrder reg p x y ∨ aliasOrder reg p y x := by
  unfold aliasOrder
  rcases Nat.lt_trichotomy (aliasCount reg p x.Alias) (aliasCount reg p y.Alias) with h | h | h
  · exact Or.inr (Or.inl h)
  · rcases strLe_total x.Alias y.Alias with h' | h'
    · exact Or.inl (Or.inr ⟨h, h'⟩)
    · exact Or.inr (Or.inr ⟨h.symm, h'⟩)
  · exact Or.inl (Or.inl h)

theorem aliasOrder_trans {reg : Registry} {p : String} {x y z : AliasInfo}
    (h₁ : aliasOrder reg p x y) (h₂ : aliasOrder reg p y z) : aliasOrder reg p x z := by
  unfold aliasOrder at *
  rcases h₁ with h₁ | ⟨e₁, s₁⟩ <;> rcases h₂ with h₂ | ⟨e₂, s₂⟩
  · exact Or.inl (by omega)
  · exact Or.inl (by omega)
  · exact Or.inl (by omega)
  · exact Or.inr ⟨by omega, strLe_trans s₁ s₂⟩

instance (reg : Registry) (p : String) : IsTotal AliasInfo (aliasOrder reg p) :=
  ⟨aliasOrder_total reg p⟩
instance (reg : Registry) (p : String) : IsTrans AliasInfo (aliasOrder reg p) :=
  ⟨fun _ _ _ => aliasOrder_trans⟩

theorem mem_explicitAliases {reg : Registry} {p a : String} :
    a ∈ explicitAliases reg p ↔ ImportedAs reg p a := by
  unfold explicitAliases ImportedAs
  rw [List.mem_dedup, List.mem_filterMap]
  constructor
  · rintro ⟨o, ho, h⟩
    refine ⟨o, ho, ?_⟩
    by_cases hp : o.ImportPath = p
    · rw [if_pos hp] at h
      refine ⟨hp, ?_⟩
      cases hal : o.Alias with
      | explicit n => rw [hal] at h; simp at h; rw [h]
      | default => rw [hal] at h; simp at h
      | blank => rw [hal] at h; simp at h
      | dotImport => rw [hal] at h; simp at h
    · rw [if_neg hp] at h
      exact absurd h (by simp)
  · rintro ⟨o, ho, hp, hal⟩
    refine ⟨o, ho, ?_⟩
    rw [if_pos hp, hal]

theorem explicitAliases_nodup (reg : Registry) (p : String) : (explicitAliases reg p).Nodup :=
  List.nodup_dedup _

theorem aliasesForPath_perm (reg : Registry) (p : String) :
    (aliasesForPath reg p).Perm
      ((explicitAliases reg p).map (fun a => AliasInfo.mk a (occurrencesOf reg p a))) :=
  List.perm_insertionSort (aliasOrder reg p) _

theorem aliasesForPath_sorted (reg : Registry) (p : String) :
    (aliasesForPath reg p).Sorted (aliasOrder reg p) :=
  List.sorted_insertionSort (aliasOrder reg p) _

theorem aliasesForPath_names_perm (reg : Registry) (p : String) :
    ((aliasesForPath reg p).map (fun x => x.Alias)).Perm (explicitAliases reg p) := by
  have h := (aliasesForPath_perm reg p).map (fun x => x.Alias)
  simpa [List.map_map, Function.comp_def] using h

theorem aliasesForPath_length (reg : Registry) (p : String) :
    (aliasesForPath reg p).length = (explicitAliases reg p).length := by
  have h := (aliasesForPath_names_perm reg p).length_eq
  simpa using h

theorem mem_aliasesForPath {reg : Registry} {p : String} {x : AliasInfo} :
    x ∈ aliasesForPath reg p ↔
      ImportedAs reg p x.Alias ∧ x.Occurrences = occurrencesOf reg p x.Alias := by
  rw [(aliasesForPath_perm reg p).mem_iff, List.mem_map]
  constructor
  · rintro ⟨a, ha, rfl⟩
    exact ⟨mem_explicitAliases.mp ha, rfl⟩
  · rintro ⟨h₁, h₂⟩
    refine ⟨x.Alias, mem_explicitAliases.mpr h₁, ?_⟩
    cases x
    simp only at h₂
    rw [h₂]

/-- A path has more than one alias in the registry view exactly when it has a
conflict. -/
theorem one_lt_length_iff_conflicted {reg : Registry} {p : String} :
    1 < (aliasesForPath reg p).length ↔ Conflicted reg p := by
  rw [aliasesForPath_length]
  have hnd := explicitAliases_nodup reg p
  unfold Conflicted
  constructor
  · intro h
    match hl : explicitAliases reg p, h, hnd with
    | a :: b :: rest, _, hnd =>
      refine ⟨a, b, ?_, ?_, ?_⟩
      · intro e
        rw [e] at hnd
        simp at hnd
      · exact mem_explicitAliases.mp (by rw [hl]; simp)
      · exact mem_explicitAliases.mp (by rw [hl]; simp)
    | [], h, _ => simp [hl] at h
    | [_], h, _ => simp [hl] at h
  · rintro ⟨a, b, hne, ha, hb⟩
    have ha' := mem_explicitAliases.mpr ha
    have hb' := mem_explicitAliases.mpr hb
    match hl : explicitAliases reg p with
    | [] => rw [hl] at ha'; simp at ha'
    | [c] =>
      rw [hl] at ha' hb'
      simp at ha' hb'
      exact absurd (ha'.trans hb'.symm) hne
    | _ :: _ :: _ => simp

theorem mapGet_map {α : Type} (keys : List String) (f : String → List α) (k : String) :
    mapGet (keys.map (fun p => (p, f p))) k = if k ∈ keys then f k else [] := by
  induction keys with
  | nil => simp [mapGet]
  | cons x xs ih =>
    simp only [List.map_cons, mapGet, List.mem_cons]
    by_cases h : x = k
    · subst h; simp
    · rw [if_neg h, ih]
      have : ¬ k = x := fun e => h e.symm
      simp [this]

theorem aliasesForPath_eq_nil {reg : Registry} {p : String}
    (h : p ∉ reg.map (fun o => o.ImportPath)) : aliasesForPath reg p = [] := by
  have : explicitAliases reg p = [] := by
    rw [List.eq_nil_iff_forall_not_mem]
    intro a ha
    obtain ⟨o, ho, hp, _⟩ := mem_explicitAliases.mp ha
    exact h (List.mem_map.mpr ⟨o, ho, hp⟩)
  unfold aliasesForPath
  rw [this]
  rfl

theorem mapGet_ImportsToAliases (reg : Registry) (p : String) :
    mapGet (ImportsToAliases reg) p = aliasesForPath reg p := by
  unfold ImportsToAliases
  rw [mapGet_map]
  by_cases h : p ∈ (reg.map (fun o => o.ImportPath)).dedup
  · rw [if_pos h]
  · rw [if_neg h]
    rw [List.mem_dedup] at h
    exact (aliasesForPath_eq_nil h).symm

theorem mapGet_FilesToImportAliases (reg : Registry) (f : String) :
    mapGet (FilesToImportAliases reg) f =
      (reg.filter (fun o => o.file = f)).map (fun o => AliasSpec.mk o.ImportPath o.Alias o.Pos) := by
  unfold FilesToImportAliases
  rw [mapGet_map]
  by_cases h : f ∈ (reg.map (fun o => o.file)).dedup
  · rw [if_pos h]
  · rw [if_neg h]
    rw [List.mem_dedup] at h
    have : reg.filter (fun o => o.file = f) = [] := by
      rw [List.filter_eq_nil_iff]
      intro o ho
      simp only [decide_eq_true_eq]
      intro e
      exact h (List.mem_map.mpr ⟨o, ho, e⟩)
    rw [this]
    rfl

theorem ImportsToAliases_keys (reg : Registry) :
    (ImportsToAliases reg).map (fun kv => kv.1) = (reg.map (fun o => o.ImportPath)).dedup := by
  unfold ImportsToAliases
  simp [List.map_map, Function.comp_def]

theorem FilesToImportAliases_keys (reg : Registry) :
    (FilesToImportAliases reg).map (fun kv => kv.1) = (reg.map (fun o => o.file)).dedup := by
  unfold FilesToImportAliases
  simp [List.map_map, Function.comp_def]

/-- The conflicted paths, sorted: what `Run` computes in `pkgsWithMultipleAliases`. -/
theorem mem_pkgsWithMultipleAliases {reg : Registry} {p : String} :
    p ∈ pkgsWithMultipleAliases (ImportsToAliases reg) ↔ Conflicted reg p := by
  unfold pkgsWithMultipleAliases
  rw [mem_sortStrings, List.mem_map]
  constructor
  · rintro ⟨kv, hkv, rfl⟩
    rw [List.mem_filter] at hkv
    obtain ⟨hmem, hlen⟩ := hkv
    unfold ImportsToAliases at hmem
    rw [List.mem_map] at hmem
    obtain ⟨q, _, rfl⟩ := hmem
    simp only [decide_eq_true_eq] at hlen
    exact one_lt_length_iff_conflicted.mp hlen
  · intro h
    refine ⟨(p, aliasesForPath reg p), ?_, rfl⟩
    rw [List.mem_filter]
    constructor
    · unfold ImportsToAliases
      rw [List.mem_map]
      refine ⟨p, ?_, rfl⟩
      rw [List.mem_dedup, List.mem_map]
      obtain ⟨a, b, _, ⟨o, ho, hp, _⟩, _⟩ := h
      exact ⟨o, ho, hp⟩
    · simp only [decide_eq_true_eq]
      exact one_lt_length_iff_conflicted.mpr h

theorem pkgsWithMultipleAliases_nodup (reg : Registry) :
    (pkgsWithMultipleAliases (ImportsToAliases reg)).Nodup := by
  unfold pkgsWithMultipleAliases
  apply sortStrings_nodup
  have h : ((ImportsToAliases reg).map (fun kv => kv.1)).Nodup := by
    rw [ImportsToAliases_keys]
    exact List.nodup_dedup _
  exact List.Nodup.sublist (List.Sublist.map _ (List.filter_sublist _)) h

theorem pkgsWithMultipleAliases_strict (reg : Registry) :
    (pkgsWithMultipleAliases (ImportsToAliases reg)).Pairwise strLt := by
  have hs : (pkgsWithMultipleAliases (ImportsToAliases reg)).Pairwise strLe :=
    sortStrings_sorted _
  have hn : (pkgsWithMultipleAliases (ImportsToAliases reg)).Pairwise (· ≠ ·) :=
    pkgsWithMultipleAliases_nodup reg
  exact (hs.and hn).imp (fun h => strLt_iff.mpr h)


theorem AddImportAliasesFromFile_ok {env : Env} {file : String} {decls : List ImportDecl}
    (h : env.parseImports file = Except.ok decls) (reg : Registry) :
    AddImportAliasesFromFile env reg file = Except.ok (reg ++ recordedOf env file) := by
  unfold AddImportAliasesFromFile recordedOf
  rw [h]

theorem AddImportAliasesFromFile_error {env : Env} {file e : String}
    (h : env.parseImports file = Except.error e) (reg : Registry) :
    AddImportAliasesFromFile env reg file = Except.error e := by
  unfold AddImportAliasesFromFile
  rw [h]

theorem parse_cases (env : Env) (f : String) :
    (∃ decls, env.parseImports f = Except.ok decls) ∨ (∃ e, env.parseImports f = Except.error e) := by
  cases h : env.parseImports f with
  | ok d => exact Or.inl ⟨d, rfl⟩
  | error e => exact Or.inr ⟨e, rfl⟩

/-- The inner loop either records every file, or stops at the first file whose
extraction fails. -/
theorem loadFiles_spec (env : Env) (p : String) (names : List String) (reg : Registry) :
    ((∀ n ∈ names, ∃ decls, env.parseImports (env.Join p n) = Except.ok decls) ∧
      loadFiles env p names reg =
        (names.map (fun n => Event.addFile (env.Join p n)),
          Except.ok (reg ++ (names.map (env.Join p)).flatMap (recordedOf env)))) ∨
    (∃ ns n ms e, names = ns ++ n :: ms ∧
      (∀ x ∈ ns, ∃ decls, env.parseImports (env.Join p x) = Except.ok decls) ∧
      env.parseImports (env.Join p n) = Except.error e ∧
      loadFiles env p names reg =
        ((ns ++ [n]).map (fun n => Event.addFile (env.Join p n)),
          Except.error (wrapErr e (env.Join p n)))) := by
  induction names generalizing reg with
  | nil =>
    left
    exact ⟨by simp, by simp [loadFiles]⟩
  | cons x xs ih =>
    rcases parse_cases env (env.Join p x) with ⟨d, hd⟩ | ⟨e, he⟩
    · rcases ih (reg ++ recordedOf env (env.Join p x)) with ⟨hall, hres⟩ | ⟨ns, n, ms, e, hsplit, hall, herr, hres⟩
      · left
        refine ⟨?_, ?_⟩
        · intro n hn
          rcases List.mem_cons.mp hn with rfl | hn
          · exact ⟨d, hd⟩
          · exact hall n hn
        · simp only [loadFiles, AddImportAliasesFromFile_ok hd, hres, List.map_cons,
            List.flatMap_cons, List.append_assoc]
      · right
        refine ⟨x :: ns, n, ms, e, by rw [hsplit]; rfl, ?_, herr, ?_⟩
        · intro y hy
          rcases List.mem_cons.mp hy with rfl | hy
          · exact ⟨d, hd⟩
          · exact hall y hy
        · simp only [loadFiles, AddImportAliasesFromFile_ok hd, hres, List.map_cons,
            List.cons_append]
    · right
      refine ⟨[], x, xs, e, rfl, by simp, he, ?_⟩
      simp only [loadFiles, AddImportAliasesFromFile_error he, List.nil_append, List.map_cons,
        List.map_nil]

theorem filterMap_file_addFile (env : Env) (p : String) (names : List String) :
    (names.map (fun n => Event.addFile (env.Join p n))).filterMap Event.file? =
      names.map (env.Join p) := by
  induction names with
  | nil => rfl
  | cons x xs ih => simp [Event.file?, ih]

theorem fullTrace_files (env : Env) (pkgPaths : List String) :
    (fullTrace env pkgPaths).filterMap Event.file? = filesInOrder env pkgPaths := by
  induction pkgPaths with
  | nil => rfl
  | cons p ps ih =>
    simp only [fullTrace, filesInOrder, List.flatMap_cons, List.filterMap_append,
      List.filterMap_cons, Event.file?] at ih ⊢
    rw [filterMap_file_addFile, ih]

/-- The outer loop either records every file of every package, or stops at the
first file whose extraction fails. -/
theorem loadPkgs_spec (env : Env) (pkgPaths : List String) (reg : Registry) :
    ((∀ f ∈ filesInOrder env pkgPaths, ∃ decls, env.parseImports f = Except.ok decls) ∧
      loadPkgs env pkgPaths reg =
        (fullTrace env pkgPaths, Except.ok (reg ++ recorded env pkgPaths))) ∨
    (∃ pre f post e tr rest, filesInOrder env pkgPaths = pre ++ f :: post ∧
      (∀ g ∈ pre, ∃ decls, env.parseImports g = Except.ok decls) ∧
      env.parseImports f = Except.error e ∧
      loadPkgs env pkgPaths reg = (tr, Except.error (wrapErr e f)) ∧
      fullTrace env pkgPaths = tr ++ rest ∧
      tr.filterMap Event.file? = pre ++ [f] ∧
      tr.getLast? = some (Event.addFile f)) := by
  induction pkgPaths generalizing reg with
  | nil =>
    left
    refine ⟨?_, ?_⟩
    · intro f hf
      simp [filesInOrder] at hf
    · simp [loadPkgs, fullTrace, recorded, filesInOrder]
  | cons p ps ih =>
    have hfiles : filesInOrder env (p :: ps) =
        (goFilesForPkg env p).map (env.Join p) ++ filesInOrder env ps := by
      simp [filesInOrder]
    have htrace : fullTrace env (p :: ps) =
        Event.importDir p :: ((goFilesForPkg env p).map (fun n => Event.addFile (env.Join p n)) ++
          fullTrace env ps) := by
      simp [fullTrace]
    rcases loadFiles_spec env p (goFilesForPkg env p) reg with
      ⟨hall, hres⟩ | ⟨ns, n, ms, e, hsplit, hall, herr, hres⟩
    · rcases ih (reg ++ ((goFilesForPkg env p).map (env.Join p)).flatMap (recordedOf env)) with
        ⟨hall', hres'⟩ | ⟨pre, f, post, e, tr, rest, hsplit, hpre, herr, hres', htr, hfm, hlast⟩
      · left
        refine ⟨?_, ?_⟩
        · intro f hf
          rw [hfiles, List.mem_append] at hf
          rcases hf with hf | hf
          · obtain ⟨n, hn, rfl⟩ := List.mem_map.mp hf
            exact hall n hn
          · exact hall' f hf
        · simp only [loadPkgs, hres, hres', htrace, recorded, hfiles, List.flatMap_append,
            List.append_assoc, List.cons_append]
      · right
        refine ⟨(goFilesForPkg env p).map (env.Join p) ++ pre, f, post, e,
          Event.importDir p :: ((goFilesForPkg env p).map (fun n => Event.addFile (env.Join p n)) ++ tr),
          rest, ?_, ?_, herr, ?_, ?_, ?_, ?_⟩
        · rw [hfiles, hsplit, List.append_assoc]
        · intro g hg
          rcases List.mem_append.mp hg with hg | hg
          · obtain ⟨n, hn, rfl⟩ := List.mem_map.mp hg
            exact hall n hn
          · exact hpre g hg
        · simp only [loadPkgs, hres, hres', List.cons_append]
        · rw [htrace, htr]
          simp
        · simp only [List.filterMap_cons, Event.file?, List.filterMap_append,
            filterMap_file_addFile, hfm, List.append_assoc]
        · have hne : tr ≠ [] := by
            intro h
            rw [h] at hlast
            simp at hlast
          rw [← List.cons_append, List.getLast?_append_of_ne_nil _ hne, hlast]
    · right
      refine ⟨ns.map (env.Join p), env.Join p n, ms.map (env.Join p) ++ filesInOrder env ps, e,
        Event.importDir p :: (ns ++ [n]).map (fun n => Event.addFile (env.Join p n)),
        ms.map (fun n => Event.addFile (env.Join p n)) ++ fullTrace env ps, ?_, ?_, herr, ?_, ?_, ?_, ?_⟩
      · rw [hfiles, hsplit]
        simp
      · intro g hg
        obtain ⟨x, hx, rfl⟩ := List.mem_map.mp hg
        exact hall x hx
      · simp only [loadPkgs, hres]
      · rw [htrace, hsplit]
        simp
      · simp only [List.filterMap_cons, Event.file?, List.map_append, List.map_cons,
          List.map_nil, List.filterMap_append, filterMap_file_addFile, List.filterMap_nil]
      · rw [List.map_append, ← List.cons_append,
          List.getLast?_append_of_ne_nil _ (by simp)]
        rfl

theorem extractOK_iff {env : Env} {f : String} :
    extractOK env f = true ↔ ∃ decls, env.parseImports f = Except.ok decls := by
  unfold extractOK
  cases h : env.parseImports f with
  | ok d => simp
  | error e => simp

/-- When every file extracts, `Run` reports on the registry of all occurrences. -/
theorem Run_of_extractsAll {env : Env} {pkgPaths : List String} (h : ExtractsAll env pkgPaths)
    (verbose : Bool) :
    Run env pkgPaths verbose =
      Result.mk (report (recorded env pkgPaths) verbose).1 (report (recorded env pkgPaths) verbose).2
        (fullTrace env pkgPaths) := by
  rcases loadPkgs_spec env pkgPaths [] with ⟨_, hres⟩ | ⟨pre, f, post, e, tr, rest, hsplit, _, herr, _⟩
  · unfold Run
    rw [hres]
    simp
  · have hf : f ∈ filesInOrder env pkgPaths := by rw [hsplit]; simp
    obtain ⟨d, hd⟩ := extractOK_iff.mp (h f hf)
    rw [hd] at herr
    cases herr

theorem report_of_not_conflicted {reg : Registry} (h : ∀ p, ¬ Conflicted reg p) (verbose : Bool) :
    report reg verbose = ([], none) := by
  unfold report
  have : pkgsWithMultipleAliases (ImportsToAliases reg) = [] := by
    rw [List.eq_nil_iff_forall_not_mem]
    intro p hp
    exact h p (mem_pkgsWithMultipleAliases.mp hp)
  rw [this]
  simp

theorem report_of_conflicted {reg : Registry} {p : String} (h : Conflicted reg p) (verbose : Bool) :
    report reg verbose =
      (if verbose then
        verboseWrites (ImportsToAliases reg) (pkgsWithMultipleAliases (ImportsToAliases reg))
       else defaultWrites reg (pkgsWithMultipleAliases (ImportsToAliases reg)), some "") := by
  unfold report
  have hp := mem_pkgsWithMultipleAliases.mpr h
  have : (pkgsWithMultipleAliases (ImportsToAliases reg)).length ≠ 0 := by
    intro h0
    rw [List.length_eq_zero] at h0
    rw [h0] at hp
    simp at hp
  rw [if_neg this]
  cases verbose <;> simp

theorem Run_of_no_conflict {env : Env} {pkgPaths : List String} (hok : ExtractsAll env pkgPaths)
    (h : ∀ p, ¬ Conflicted (recorded env pkgPaths) p) (verbose : Bool) :
    (Run env pkgPaths verbose).err = none ∧ (Run env pkgPaths verbose).writes = [] ∧
      (Run env pkgPaths verbose).output = "" := by
  rw [Run_of_extractsAll hok]
  simp only [report_of_not_conflicted h, Result.output]
  simp [String.join]

/-- C1. For every list of package paths whose files all extract successfully and
for both values of the verbose flag: when no import path is imported under two
distinct explicit aliases, `Run` returns nil and makes no write (its output is
empty); when some import path is, `Run` returns a non-nil error. -/
theorem Run_outcome (env : Env) (pkgPaths : List String) (verbose : Bool)
    (hok : ExtractsAll env pkgPaths) :
    ((∀ p, ¬ Conflicted (recorded env pkgPaths) p) →
      (Run env pkgPaths verbose).err = none ∧ (Run env pkgPaths verbose).writes = [] ∧
        (Run env pkgPaths verbose).output = "") ∧
    ((∃ p, Conflicted (recorded env pkgPaths) p) →
      (Run env pkgPaths verbose).err ≠ none) := by
  refine ⟨fun h => Run_of_no_conflict hok h verbose, fun ⟨p, hp⟩ => ?_⟩
  rw [Run_of_extractsAll hok]
  simp only [report_of_conflicted hp]
  simp

theorem defaultWrites_eq (reg : Registry) :
    defaultWrites reg (pkgsWithMultipleAliases (ImportsToAliases reg)) =
      (byFile reg).filterMap (lineOf reg) := by
  unfold defaultWrites byFile sourceFiles
  rw [FilesToImportAliases_keys, List.filterMap_flatMap]
  congr 1
  funext f
  rw [mapGet_FilesToImportAliases, List.filterMap_map]
  apply List.filterMap_congr
  intro o ho
  have hf : o.file = f := by simpa using (List.mem_filter.mp ho).2
  simp only [Function.comp, lineOf, hf]

theorem lineOf_eq_none_of_not_conflicted {reg : Registry} {o : ImportOccurrence}
    (h : ¬ Conflicted reg o.ImportPath) : lineOf reg o = none := by
  unfold lineOf violationOf
  have : o.ImportPath ∉ pkgsWithMultipleAliases (ImportsToAliases reg) :=
    fun hm => h (mem_pkgsWithMultipleAliases.mp hm)
  simp [this]

theorem lineOf_of_conflicted {reg : Registry} {o : ImportOccurrence}
    (h : Conflicted reg o.ImportPath) :
    lineOf reg o =
      if (GetAliasStatus reg o.Alias o.ImportPath).OK then none
      else some (Write.violation o.file o.Pos.Line o.Pos.Column o.Alias.name o.ImportPath
        (GetAliasStatus reg o.Alias o.ImportPath).Recommendation) := by
  unfold lineOf violationOf
  have := mem_pkgsWithMultipleAliases.mpr h
  simp [this]

theorem Run_default_writes {env : Env} {pkgPaths : List String} (hok : ExtractsAll env pkgPaths) :
    (Run env pkgPaths false).writes =
      (byFile (recorded env pkgPaths)).filterMap (lineOf (recorded env pkgPaths)) := by
  rw [Run_of_extractsAll hok]
  by_cases h : ∃ p, Conflicted (recorded env pkgPaths) p
  · obtain ⟨p, hp⟩ := h
    simp only [report_of_conflicted hp, defaultWrites_eq]
    simp
  · have h' : ∀ p, ¬ Conflicted (recorded env pkgPaths) p := fun p hp => h ⟨p, hp⟩
    simp only [report_of_not_conflicted h']
    symm
    rw [List.filterMap_eq_nil_iff]
    intro o _
    exact lineOf_eq_none_of_not_conflicted (h' _)

theorem Run_verbose_writes {env : Env} {pkgPaths : List String} (hok : ExtractsAll env pkgPaths) :
    (Run env pkgPaths true).writes =
      (pkgsWithMultipleAliases (ImportsToAliases (recorded env pkgPaths))).flatMap (fun k =>
        Write.header k :: (aliasesForPath (recorded env pkgPaths) k).map groupWrite) := by
  rw [Run_of_extractsAll hok]
  by_cases h : ∃ p, Conflicted (recorded env pkgPaths) p
  · obtain ⟨p, hp⟩ := h
    simp only [report_of_conflicted hp, verboseWrites, mapGet_ImportsToAliases]
    simp
  · have h' : ∀ p, ¬ Conflicted (recorded env pkgPaths) p := fun p hp => h ⟨p, hp⟩
    simp only [report_of_not_conflicted h']
    have : pkgsWithMultipleAliases (ImportsToAliases (recorded env pkgPaths)) = [] := by
      rw [List.eq_nil_iff_forall_not_mem]
      intro p hp
      exact h' p (mem_pkgsWithMultipleAliases.mp hp)
    rw [this]
    rfl

theorem Run_err {env : Env} {pkgPaths : List String} (hok : ExtractsAll env pkgPaths)
    (verbose : Bool) :
    (Run env pkgPaths verbose).err =
      if pkgsWithMultipleAliases (ImportsToAliases (recorded env pkgPaths)) = [] then none
      else some "" := by
  rw [Run_of_extractsAll hok]
  unfold report
  simp only [List.length_eq_zero]
  by_cases h : pkgsWithMultipleAliases (ImportsToAliases (recorded env pkgPaths)) = []
  · simp [h]
  · cases verbose <;> simp [h]

theorem le_maxCount {reg : Registry} {p : String} {l : List AliasInfo} {x : AliasInfo}
    (h : x ∈ l) : aliasCount reg p x.Alias ≤ maxCount reg p l := by
  unfold maxCount
  induction l with
  | nil => simp at h
  | cons y ys ih =>
    simp only [List.map_cons, List.foldr_cons]
    rcases List.mem_cons.mp h with rfl | h
    · exact le_max_left _ _
    · exact le_trans (ih h) (le_max_right _ _)

theorem maxCount_le {reg : Registry} {p : String} {l : List AliasInfo} {n : Nat}
    (h : ∀ x ∈ l, aliasCount reg p x.Alias ≤ n) : maxCount reg p l ≤ n := by
  unfold maxCount
  induction l with
  | nil => simp
  | cons y ys ih =>
    simp only [List.map_cons, List.foldr_cons]
    exact max_le (h y (by simp)) (ih (fun x hx => h x (by simp [hx])))

theorem filter_eq_singleton {α : Type} {p : α → Bool} {l : List α} {a : α} (hnd : l.Nodup)
    (ha : a ∈ l) (hp : ∀ x ∈ l, p x = true ↔ x = a) : l.filter p = [a] := by
  induction l with
  | nil => simp at ha
  | cons y ys ih =>
    rw [List.nodup_cons] at hnd
    by_cases hy : y = a
    · subst hy
      have h1 : p y = true := (hp y (by simp)).mpr rfl
      have h2 : ys.filter p = [] := by
        rw [List.filter_eq_nil_iff]
        intro x hx hpx
        have := (hp x (by simp [hx])).mp hpx
        exact hnd.1 (this ▸ hx)
      simp [List.filter_cons, h1, h2]
    · have h1 : ¬ p y = true := fun h => hy ((hp y (by simp)).mp h)
      have ha' : a ∈ ys := by
        rcases List.mem_cons.mp ha with e | h
        · exact absurd e.symm hy
        · exact h
      simp only [List.filter_cons, h1, if_false]
      exact ih hnd.2 ha' (fun x hx => hp x (by simp [hx]))

theorem aliasesForPath_nodup (reg : Registry) (p : String) : (aliasesForPath reg p).Nodup := by
  have h : ((aliasesForPath reg p).map (fun x => x.Alias)).Nodup :=
    (aliasesForPath_names_perm reg p).nodup_iff.mpr (explicitAliases_nodup reg p)
  exact List.Nodup.of_map _ h

theorem info_mem_aliasesForPath {reg : Registry} {p a : String} (h : ImportedAs reg p a) :
    AliasInfo.mk a (occurrencesOf reg p a) ∈ aliasesForPath reg p :=
  mem_aliasesForPath.mpr ⟨h, rfl⟩

theorem GetAliasStatus_not_explicit (reg : Registry) (t : AliasToken) (p : String)
    (h : ∀ a, t ≠ AliasToken.explicit a) : GetAliasStatus reg t p = AliasStatus.mk true "" := by
  cases t with
  | explicit a => exact absurd rfl (h a)
  | default => rfl
  | blank => rfl
  | dotImport => rfl

/-- With a strict winner the winners list is the winner alone. -/
theorem winners_of_strict {reg : Registry} {p A : String} (hA : ImportedAs reg p A)
    (hmax : ∀ b, b ≠ A → ImportedAs reg p b → aliasCount reg p b < aliasCount reg p A) :
    winners reg p (aliasesForPath reg p) = [AliasInfo.mk A (occurrencesOf reg p A)] := by
  have hmem := info_mem_aliasesForPath hA
  have hmc : maxCount reg p (aliasesForPath reg p) = aliasCount reg p A := by
    apply le_antisymm
    · apply maxCount_le
      intro x hx
      obtain ⟨hx1, _⟩ := mem_aliasesForPath.mp hx
      by_cases e : x.Alias = A
      · rw [e]
      · exact le_of_lt (hmax x.Alias e hx1)
    · exact le_maxCount (x := AliasInfo.mk A (occurrencesOf reg p A)) hmem
  unfold winners
  apply filter_eq_singleton (aliasesForPath_nodup reg p) hmem
  intro x hx
  obtain ⟨hx1, hx2⟩ := mem_aliasesForPath.mp hx
  simp only [decide_eq_true_eq, hmc]
  constructor
  · intro hlen
    by_cases e : x.Alias = A
    · cases x
      simp only at e hx2
      rw [hx2, e]
    · have := hmax x.Alias e hx1
      omega
  · rintro rfl
    rfl

theorem GetAliasStatus_winner {reg : Registry} {p A : String} (hA : ImportedAs reg p A)
    (hmax : ∀ b, b ≠ A → ImportedAs reg p b → aliasCount reg p b < aliasCount reg p A) :
    GetAliasStatus reg (AliasToken.explicit A) p = AliasStatus.mk true "" := by
  simp only [GetAliasStatus, winners_of_strict hA hmax]
  simp

theorem GetAliasStatus_loser {reg : Registry} {p A b : String} (hA : ImportedAs reg p A)
    (hmax : ∀ b, b ≠ A → ImportedAs reg p b → aliasCount reg p b < aliasCount reg p A)
    (hc : Conflicted reg p) (hb : b ≠ A) :
    GetAliasStatus reg (AliasToken.explicit b) p = AliasStatus.mk false (useAlias A) := by
  have hlen := one_lt_length_iff_conflicted.mpr hc
  simp only [GetAliasStatus, winners_of_strict hA hmax]
  rw [if_neg (by omega), if_neg hb]

/-- With two aliases at the maximum count every alias gets the tie message. -/
theorem GetAliasStatus_tie {reg : Registry} {p a b : String} (hab : a ≠ b)
    (ha : ImportedAs reg p a) (hb : ImportedAs reg p b)
    (hcnt : aliasCount reg p a = aliasCount reg p b)
    (hmax : ∀ c, ImportedAs reg p c → aliasCount reg p c ≤ aliasCount reg p a) (c : String) :
    GetAliasStatus reg (AliasToken.explicit c) p =
      AliasStatus.mk false
        (noConsensus (sortStrings (explicitAliases reg p)) (aliasCount reg p a)) := by
  have hc : Conflicted reg p := ⟨a, b, hab, ha, hb⟩
  have hlen := one_lt_length_iff_conflicted.mpr hc
  have hma := info_mem_aliasesForPath ha
  have hmb := info_mem_aliasesForPath hb
  have hmc : maxCount reg p (aliasesForPath reg p) = aliasCount reg p a := by
    apply le_antisymm
    · apply maxCount_le
      intro x hx
      obtain ⟨hx1, _⟩ := mem_aliasesForPath.mp hx
      exact hmax x.Alias hx1
    · exact le_maxCount (x := AliasInfo.mk a (occurrencesOf reg p a)) hma
  have hwa : AliasInfo.mk a (occurrencesOf reg p a) ∈ winners reg p (aliasesForPath reg p) := by
    unfold winners
    rw [List.mem_filter]
    exact ⟨hma, by simp [hmc]⟩
  have hwb : AliasInfo.mk b (occurrencesOf reg p b) ∈ winners reg p (aliasesForPath reg p) := by
    unfold winners
    rw [List.mem_filter]
    refine ⟨hmb, ?_⟩
    simp only [decide_eq_true_eq, hmc, hcnt]
  have hnames : sortStrings ((aliasesForPath reg p).map (fun x => x.Alias)) =
      sortStrings (explicitAliases reg p) :=
    sortStrings_eq_of_perm (aliasesForPath_names_perm reg p)
  simp only [GetAliasStatus]
  rw [if_neg (by omega)]
  split
  · rename_i w hw
    rw [hw] at hwa hwb
    simp only [List.mem_singleton] at hwa hwb
    have : a = b := by
      have := hwa.trans hwb.symm
      simpa using congrArg AliasInfo.Alias this
    exact absurd this hab
  · rw [hnames, hmc]

theorem GetAliasStatus_not_conflicted {reg : Registry} {p : String} (h : ¬ Conflicted reg p)
    (t : AliasToken) : GetAliasStatus reg t p = AliasStatus.mk true "" := by
  have hlen : (aliasesForPath reg p).length ≤ 1 := by
    have := mt one_lt_length_iff_conflicted.mp h
    omega
  cases t with
  | explicit a => simp only [GetAliasStatus, if_pos hlen]
  | default => rfl
  | blank => rfl
  | dotImport => rfl

theorem map_filter_eq_filterMap {α β : Type} (q : α → Bool) (g : α → β) (l : List α) :
    (l.filter q).map g = l.filterMap (fun o => if q o then some (g o) else none) := by
  induction l with
  | nil => rfl
  | cons x xs ih =>
    by_cases h : q x = true
    · simp [List.filter_cons, List.filterMap_cons, h, ih]
    · simp [List.filter_cons, List.filterMap_cons, h, ih]

theorem lineOf_filter_other {reg : Registry} {P : String} {o : ImportOccurrence}
    (h : o.ImportPath ≠ P) : Option.filter (Write.isAbout P) (lineOf reg o) = none := by
  by_cases hc : Conflicted reg o.ImportPath
  · rw [lineOf_of_conflicted hc]
    split
    · rfl
    · simp [Option.filter, Write.isAbout, h]
  · rw [lineOf_eq_none_of_not_conflicted hc]
    rfl

theorem lineOf_strict {reg : Registry} {P A : String} (hA : ImportedAs reg P A)
    (hmax : ∀ b, b ≠ A → ImportedAs reg P b → aliasCount reg P b < aliasCount reg P A)
    (o : ImportOccurrence) (ho : o ∈ reg) :
    Option.filter (Write.isAbout P) (lineOf reg o) =
      if usesOtherAlias P A o then
        some (Write.violation o.file o.Pos.Line o.Pos.Column o.Alias.name P (useAlias A))
      else none := by
  by_cases hp : o.ImportPath = P
  · cases hal : o.Alias with
    | explicit b =>
      by_cases hb : b = A
      · have hu : usesOtherAlias P A o = false := by simp [usesOtherAlias, hal, hb]
        rw [hu]
        by_cases hc : Conflicted reg o.ImportPath
        · rw [lineOf_of_conflicted hc, hal, hp, hb, GetAliasStatus_winner hA hmax]
          rfl
        · rw [lineOf_eq_none_of_not_conflicted hc]
          rfl
      · have hu : usesOtherAlias P A o = true := by simp [usesOtherAlias, hal, hb, hp]
        have hbi : ImportedAs reg P b := ⟨o, ho, hp, hal⟩
        have hc : Conflicted reg P := ⟨b, A, hb, hbi, hA⟩
        rw [hu, lineOf_of_conflicted (hp ▸ hc), hal, hp, GetAliasStatus_loser hA hmax hc hb]
        simp [Option.filter, Write.isAbout, AliasToken.name]
    | default =>
      have hu : usesOtherAlias P A o = false := by simp [usesOtherAlias, hal]
      rw [hu]
      by_cases hc : Conflicted reg o.ImportPath
      · rw [lineOf_of_conflicted hc, hal]; rfl
      · rw [lineOf_eq_none_of_not_conflicted hc]; rfl
    | blank =>
      have hu : usesOtherAlias P A o = false := by simp [usesOtherAlias, hal]
      rw [hu]
      by_cases hc : Conflicted reg o.ImportPath
      · rw [lineOf_of_conflicted hc, hal]; rfl
      · rw [lineOf_eq_none_of_not_conflicted hc]; rfl
    | dotImport =>
      have hu : usesOtherAlias P A o = false := by simp [usesOtherAlias, hal]
      rw [hu]
      by_cases hc : Conflicted reg o.ImportPath
      · rw [lineOf_of_conflicted hc, hal]; rfl
      · rw [lineOf_eq_none_of_not_conflicted hc]; rfl
  · rw [lineOf_filter_other hp]
    have hu : usesOtherAlias P A o = false := by
      unfold usesOtherAlias
      split <;> simp [hp]
    rw [hu]
    rfl

theorem mem_byFile {reg : Registry} {o : ImportOccurrence} : o ∈ byFile reg ↔ o ∈ reg := by
  unfold byFile sourceFiles
  rw [List.mem_flatMap]
  constructor
  · rintro ⟨f, _, hf⟩
    exact (List.mem_filter.mp hf).1
  · intro ho
    refine ⟨o.file, ?_, ?_⟩
    · rw [mem_sortStrings, List.mem_dedup, List.mem_map]
      exact ⟨o, ho, rfl⟩
    · rw [List.mem_filter]
      exact ⟨ho, by simp⟩

/-- C3. Let alias `A` of import path `P` have strictly more recorded occurrences
than every other explicit alias of `P`. Then the default-mode lines about `P` are
exactly, in report order, one line for each occurrence of `P` under an explicit
alias `b` other than `A`, and that line reads
`<file>:<line>:<column>: uses alias "b" to import package <P>. Use alias "A" instead.`
followed by a newline; no line is written for an occurrence of `P` under `A`. -/
theorem consensus_lines (env : Env) (pkgPaths : List String) (hok : ExtractsAll env pkgPaths)
    (P A : String) (hA : ImportedAs (recorded env pkgPaths) P A)
    (hmax : ∀ b, b ≠ A → ImportedAs (recorded env pkgPaths) P b →
      aliasCount (recorded env pkgPaths) P b < aliasCount (recorded env pkgPaths) P A) :
    (Run env pkgPaths false).writes.filter (Write.isAbout P) =
        ((byFile (recorded env pkgPaths)).filter (usesOtherAlias P A)).map (fun o =>
          Write.violation o.file o.Pos.Line o.Pos.Column o.Alias.name P (useAlias A)) ∧
      (∀ f l c b, (Write.violation f l c b P (useAlias A)).render =
        f ++ ":" ++ toString l ++ ":" ++ toString c ++ ": uses alias \"" ++ b ++
          "\" to import package " ++ P ++ ". Use alias \"" ++ A ++ "\" instead.\n") ∧
      (∀ f l c r, Write.violation f l c A P r ∉ (Run env pkgPaths false).writes) := by
  have hw := Run_default_writes hok
  have hfilter : (Run env pkgPaths false).writes.filter (Write.isAbout P) =
      ((byFile (recorded env pkgPaths)).filter (usesOtherAlias P A)).map (fun o =>
        Write.violation o.file o.Pos.Line o.Pos.Column o.Alias.name P (useAlias A)) := by
    rw [hw, List.filter_filterMap, map_filter_eq_filterMap]
    apply List.filterMap_congr
    intro o ho
    exact lineOf_strict hA hmax o (mem_byFile.mp ho)
  refine ⟨hfilter, ?_, ?_⟩
  · intro f l c b
    apply String.ext
    simp only [Write.render, useAlias, quote, String.data_append, List.append_assoc]
    rfl
  · intro f l c r hmem
    have : Write.violation f l c A P r ∈ (Run env pkgPaths false).writes.filter (Write.isAbout P) := by
      rw [List.mem_filter]
      exact ⟨hmem, by simp [Write.isAbout]⟩
    rw [hfilter, List.mem_map] at this
    obtain ⟨o, ho, he⟩ := this
    have hu := (List.mem_filter.mp ho).2
    unfold usesOtherAlias at hu
    cases hal : o.Alias with
    | explicit b =>
      rw [hal] at hu he
      simp only [decide_eq_true_eq] at hu
      simp only [AliasToken.name, Write.violation.injEq] at he
      exact hu.2 he.2.2.2.1
    | default => rw [hal] at hu; simp at hu
    | blank => rw [hal] at hu; simp at hu
    | dotImport => rw [hal] at hu; simp at hu

theorem Run_outcome_witness :
    ExtractsAll tieEnv ["proj", "proj/bar"] ∧
      (Run tieEnv ["proj", "proj/bar"] false).err ≠ none :=
  ⟨by decide, (Run_outcome tieEnv ["proj", "proj/bar"] false (by decide)).2
    ⟨"\"fmt\"", "foo", "bar", by decide, by decide, by decide⟩⟩

theorem consensus_lines_witness :
    (Run tieEnv ["proj", "proj", "proj/bar"] false).writes.filter (Write.isAbout "\"fmt\"") =
        [Write.violation "proj/bar/bar.go" 1 21 "bar" "\"fmt\"" "Use alias \"foo\" instead"] ∧
      (Run commonEnv threePkgs false).writes.filter (Write.isAbout "\"fmt\"") =
        [Write.violation "proj/bar/bar.go" 1 21 "bar" "\"fmt\"" "Use alias \"foo\" instead"] :=
  ⟨((consensus_lines tieEnv ["proj", "proj", "proj/bar"] (by decide) "\"fmt\"" "foo" (by decide)
    (fun b hne hb =>
      (by decide : ∀ b ∈ explicitAliases (recorded tieEnv ["proj", "proj", "proj/bar"]) "\"fmt\"",
        b ≠ "foo" →
        aliasCount (recorded tieEnv ["proj", "proj", "proj/bar"]) "\"fmt\"" b <
          aliasCount (recorded tieEnv ["proj", "proj", "proj/bar"]) "\"fmt\"" "foo")
        b (mem_explicitAliases.mpr hb) hne)).1).trans (by decide),
  ((consensus_lines commonEnv threePkgs (by decide) "\"fmt\"" "foo" (by decide)
    (fun b hne hb =>
      (by decide : ∀ b ∈ explicitAliases (recorded commonEnv threePkgs) "\"fmt\"", b ≠ "foo" →
        aliasCount (recorded commonEnv threePkgs) "\"fmt\"" b <
          aliasCount (recorded commonEnv threePkgs) "\"fmt\"" "foo")
        b (mem_explicitAliases.mpr hb) hne)).1).trans (by decide)⟩

set_option maxRecDepth 100000 in
/-- The model reproduces the expected default and verbose output of the test
"suggest the more common one" (importalias_test.go:293-309). -/
theorem commonEnv_output :
    (Run commonEnv threePkgs false).output =
      "proj/bar/bar.go:1:21: uses alias \"bar\" to import package \"fmt\". Use alias \"foo\" instead.\n" ∧
    (Run commonEnv threePkgs true).output =
      "\"fmt\" is imported using multiple different aliases:\n\tfoo (2 files):\n\t\tproj/baz/baz.go:1:21\n\t\tproj/foo.go:1:22\n\tbar (1 file):\n\t\tproj/bar/bar.go:1:21\n" := by
  decide

set_option maxRecDepth 100000 in
/-- The model reproduces the expected output of the test with three aliases
(importalias_test.go:334-353). -/
theorem threeEnv_output :
    (Run threeEnv threePkgs false).output =
      "proj/bar/bar.go:1:21: uses alias \"bar\" to import package \"fmt\". No consensus alias exists for this import in the project (\"bar\", \"baz\" and \"foo\" are all used once each).\nproj/baz/baz.go:1:21: uses alias \"baz\" to import package \"fmt\". No consensus alias exists for this import in the project (\"bar\", \"baz\" and \"foo\" are all used once each).\nproj/foo.go:1:22: uses alias \"foo\" to import package \"fmt\". No consensus alias exists for this import in the project (\"bar\", \"baz\" and \"foo\" are all used once each).\n" ∧
    (Run threeEnv threePkgs true).output =
      "\"fmt\" is imported using multiple different aliases:\n\tbar (1 file):\n\t\tproj/bar/bar.go:1:21\n\tbaz (1 file):\n\t\tproj/baz/baz.go:1:21\n\tfoo (1 file):\n\t\tproj/foo.go:1:22\n" := by
  decide

theorem mem_Run_verbose {env : Env} {pkgPaths : List String} (hok : ExtractsAll env pkgPaths)
    {P : String} (h : Write.header P ∈ (Run env pkgPaths true).writes) :
    Conflicted (recorded env pkgPaths) P := by
  rw [Run_verbose_writes hok, List.mem_flatMap] at h
  obtain ⟨k, hk, hmem⟩ := h
  rcases List.mem_cons.mp hmem with e | hg
  · cases e
    exact mem_pkgsWithMultipleAliases.mp hk
  · obtain ⟨x, _, hx⟩ := List.mem_map.mp hg
    cases hx

theorem mem_Run_default {env : Env} {pkgPaths : List String} (hok : ExtractsAll env pkgPaths)
    {w : Write} (h : w ∈ (Run env pkgPaths false).writes) :
    ∃ o ∈ recorded env pkgPaths, Conflicted (recorded env pkgPaths) o.ImportPath ∧
      (GetAliasStatus (recorded env pkgPaths) o.Alias o.ImportPath).OK = false ∧
      w = Write.violation o.file o.Pos.Line o.Pos.Column o.Alias.name o.ImportPath
        (GetAliasStatus (recorded env pkgPaths) o.Alias o.ImportPath).Recommendation := by
  rw [Run_default_writes hok, List.mem_filterMap] at h
  obtain ⟨o, ho, hl⟩ := h
  refine ⟨o, mem_byFile.mp ho, ?_⟩
  by_cases hc : Conflicted (recorded env pkgPaths) o.ImportPath
  · rw [lineOf_of_conflicted hc] at hl
    by_cases hs : (GetAliasStatus (recorded env pkgPaths) o.Alias o.ImportPath).OK = true
    · rw [if_pos hs] at hl
      cases hl
    · rw [if_neg hs] at hl
      refine ⟨hc, by simpa using hs, ?_⟩
      exact (Option.some.inj hl).symm
  · rw [lineOf_eq_none_of_not_conflicted hc] at hl
    cases hl

/-- C2. An import path `P` used with at most one distinct explicit alias is never
flagged, whatever unaliased, blank or dot imports of `P` and whatever aliases of
other paths exist: verbose `Run` writes no header for `P`, default-mode `Run`
writes no line about `P`, and if no other path is conflicted `Run` returns nil
and writes nothing, in both modes. -/
theorem unflagged_path (env : Env) (pkgPaths : List String) (hok : ExtractsAll env pkgPaths)
    (P : String)
    (hP : ∀ a b, ImportedAs (recorded env pkgPaths) P a → ImportedAs (recorded env pkgPaths) P b →
      a = b) :
    Write.header P ∉ (Run env pkgPaths true).writes ∧
      (∀ f l c a r, Write.violation f l c a P r ∉ (Run env pkgPaths false).writes) ∧
      ((∀ q, q ≠ P → ¬ Conflicted (recorded env pkgPaths) q) →
        ∀ verbose, (Run env pkgPaths verbose).err = none ∧
          (Run env pkgPaths verbose).writes = [] ∧ (Run env pkgPaths verbose).output = "") := by
  have hnc : ¬ Conflicted (recorded env pkgPaths) P := by
    rintro ⟨a, b, hne, ha, hb⟩
    exact hne (hP a b ha hb)
  refine ⟨fun h => hnc (mem_Run_verbose hok h), ?_, ?_⟩
  · intro f l c a r h
    obtain ⟨o, _, hc, _, he⟩ := mem_Run_default hok h
    simp only [Write.violation.injEq] at he
    rw [← he.2.2.2.2.1] at hc
    exact hnc hc
  · intro hq verbose
    have hall : ∀ p, ¬ Conflicted (recorded env pkgPaths) p := by
      intro p
      by_cases e : p = P
      · rw [e]; exact hnc
      · exact hq p e
    exact Run_of_no_conflict hok hall verbose

theorem unflagged_path_witness :
    ExtractsAll cleanEnv ["proj", "proj/bar"] ∧
      Write.header "\"fmt\"" ∉ (Run cleanEnv ["proj", "proj/bar"] true).writes ∧
      (Run cleanEnv ["proj", "proj/bar"] false).err = none :=
  ⟨by decide,
    (unflagged_path cleanEnv ["proj", "proj/bar"] (by decide) "\"fmt\""
      (fun a b ha hb =>
        (by decide : ∀ a ∈ explicitAliases (recorded cleanEnv ["proj", "proj/bar"]) "\"fmt\"",
          ∀ b ∈ explicitAliases (recorded cleanEnv ["proj", "proj/bar"]) "\"fmt\"", a = b)
          a (mem_explicitAliases.mpr ha) b (mem_explicitAliases.mpr hb))).1,
    ((unflagged_path cleanEnv ["proj", "proj/bar"] (by decide) "\"fmt\""
      (fun a b ha hb =>
        (by decide : ∀ a ∈ explicitAliases (recorded cleanEnv ["proj", "proj/bar"]) "\"fmt\"",
          ∀ b ∈ explicitAliases (recorded cleanEnv ["proj", "proj/bar"]) "\"fmt\"", a = b)
          a (mem_explicitAliases.mpr ha) b (mem_explicitAliases.mpr hb))).2.2
      (fun q _ hq => by
        have h := mem_pkgsWithMultipleAliases.mpr hq
        have h0 : pkgsWithMultipleAliases (ImportsToAliases (recorded cleanEnv ["proj", "proj/bar"])) = [] := by
          decide
        rw [h0] at h
        cases h) false).1⟩

theorem lineOf_tie {reg : Registry} {P a b : String} (hab : a ≠ b)
    (ha : ImportedAs reg P a) (hb : ImportedAs reg P b)
    (hcnt : aliasCount reg P a = aliasCount reg P b)
    (hmax : ∀ c, ImportedAs reg P c → aliasCount reg P c ≤ aliasCount reg P a)
    (o : ImportOccurrence) :
    Option.filter (Write.isAbout P) (lineOf reg o) =
      if usesExplicitAlias P o then
        some (Write.violation o.file o.Pos.Line o.Pos.Column o.Alias.name P
          (noConsensus (sortStrings (explicitAliases reg P)) (aliasCount reg P a)))
      else none := by
  have hc : Conflicted reg P := ⟨a, b, hab, ha, hb⟩
  by_cases hp : o.ImportPath = P
  · cases hal : o.Alias with
    | explicit c =>
      have hu : usesExplicitAlias P o = true := by simp [usesExplicitAlias, hal, hp]
      rw [hu, lineOf_of_conflicted (hp ▸ hc), hal, hp, GetAliasStatus_tie hab ha hb hcnt hmax]
      simp [Option.filter, Write.isAbout, AliasToken.name]
    | default =>
      have hu : usesExplicitAlias P o = false := by simp [usesExplicitAlias, hal]
      rw [hu, lineOf_of_conflicted (hp ▸ hc), hal]; rfl
    | blank =>
      have hu : usesExplicitAlias P o = false := by simp [usesExplicitAlias, hal]
      rw [hu, lineOf_of_conflicted (hp ▸ hc), hal]; rfl
    | dotImport =>
      have hu : usesExplicitAlias P o = false := by simp [usesExplicitAlias, hal]
      rw [hu, lineOf_of_conflicted (hp ▸ hc), hal]; rfl
  · rw [lineOf_filter_other hp]
    have hu : usesExplicitAlias P o = false := by
      unfold usesExplicitAlias
      split <;> simp [hp]
    rw [hu]
    rfl

theorem sorted_explicitAliases (reg : Registry) (P : String) :
    (sortStrings (explicitAliases reg P)).Pairwise strLt ∧
      ∀ c, c ∈ sortStrings (explicitAliases reg P) ↔ ImportedAs reg P c :=
  ⟨sortStrings_strict (explicitAliases_nodup reg P),
    fun _ => mem_sortStrings.trans mem_explicitAliases⟩

theorem englishList_append_singleton (init : List String) (last : String) (h : init ≠ []) :
    englishList (init ++ [last]) = ", ".intercalate init ++ " and " ++ last := by
  match init, h with
  | a :: rest, _ =>
    match hr : rest ++ [last] with
    | [] => simp at hr
    | b :: rest' =>
      have e : a :: rest ++ [last] = a :: b :: rest' := by simp [hr]
      rw [e]
      simp only [englishList]
      have e2 : (a :: b :: rest').dropLast = a :: rest := by
        rw [← e]
        exact List.dropLast_concat
      have e3 : (a :: b :: rest').getLast (by simp) = last := by
        have : (a :: rest ++ [last]).getLast (by simp) = last := by simp
        simpa [e] using this
      rw [e2, e3]

theorem noConsensus_append (init : List String) (last : String) (h : init ≠ []) (n : Nat) :
    noConsensus (init ++ [last]) n =
      "No consensus alias exists for this import in the project (" ++
        (", ".intercalate (init.map quote) ++ " and " ++ quote last) ++ " are " ++
        (if init.length = 1 then "both" else "all") ++ " used " ++
        (if n = 1 then "once" else toString n ++ " times") ++ " each)" := by
  simp only [noConsensus, List.map_append, List.map_cons, List.map_nil]
  rw [englishList_append_singleton _ _ (by simpa using h)]
  have e : ((init ++ [last]).length = 2) ↔ (init.length = 1) := by
    simp only [List.length_append, List.length_cons, List.length_nil]
    omega
  simp only [e, countPhrase]

/-- C4. Let two distinct explicit aliases `a` and `b` of import path `P` share the
maximum number of recorded occurrences, and let `init ++ [last]` be the distinct
explicit aliases of `P` in strictly ascending order. Then the default-mode lines
about `P` are exactly, in report order, one line for every occurrence of `P` under
an explicit alias, the occurrences of the tied aliases included, and the
recommendation of each line is the sentence
`No consensus alias exists for this import in the project (...)` whose list is the
quoted aliases of `init ++ [last]`, followed by `are both used` or `are all used`
and one count phrase, the same on every line. -/
theorem tie_lines (env : Env) (pkgPaths : List String) (hok : ExtractsAll env pkgPaths)
    (P a b : String) (hab : a ≠ b)
    (ha : ImportedAs (recorded env pkgPaths) P a) (hb : ImportedAs (recorded env pkgPaths) P b)
    (hcnt : aliasCount (recorded env pkgPaths) P a = aliasCount (recorded env pkgPaths) P b)
    (hmax : ∀ c, ImportedAs (recorded env pkgPaths) P c →
      aliasCount (recorded env pkgPaths) P c ≤ aliasCount (recorded env pkgPaths) P a) :
    ∃ (init : List String) (last : String) (n : Nat),
      init ≠ [] ∧ (init ++ [last]).Pairwise strLt ∧
      (∀ c, c ∈ init ++ [last] ↔ ImportedAs (recorded env pkgPaths) P c) ∧
      (Run env pkgPaths false).writes.filter (Write.isAbout P) =
        ((byFile (recorded env pkgPaths)).filter (usesExplicitAlias P)).map (fun o =>
          Write.violation o.file o.Pos.Line o.Pos.Column o.Alias.name P
            ("No consensus alias exists for this import in the project (" ++
              (", ".intercalate (init.map quote) ++ " and " ++ quote last) ++ " are " ++
              (if init.length = 1 then "both" else "all") ++ " used " ++
              (if n = 1 then "once" else toString n ++ " times") ++ " each)")) := by
  have hsorted := sorted_explicitAliases (recorded env pkgPaths) P
  rcases List.eq_nil_or_concat (sortStrings (explicitAliases (recorded env pkgPaths) P)) with
    hnil | ⟨init, last, hnames⟩
  · have hmem := (hsorted.2 a).mpr ha
    rw [hnil] at hmem
    cases hmem
  · rw [List.concat_eq_append] at hnames
    rw [hnames] at hsorted
    have hinit : init ≠ [] := by
      rintro rfl
      have h1 : a = last := by simpa using (hsorted.2 a).mpr ha
      have h2 : b = last := by simpa using (hsorted.2 b).mpr hb
      exact hab (h1.trans h2.symm)
    refine ⟨init, last, aliasCount (recorded env pkgPaths) P a, hinit, hsorted.1, hsorted.2, ?_⟩
    rw [Run_default_writes hok, List.filter_filterMap, map_filter_eq_filterMap]
    apply List.filterMap_congr
    intro o _
    rw [lineOf_tie hab ha hb hcnt hmax o, hnames, noConsensus_append _ _ hinit]

set_option maxRecDepth 100000 in
theorem tie_lines_witness :
    (ExtractsAll dupEnv ["a"] ∧
      aliasCount (recorded dupEnv ["a"]) "\"fmt\"" "foo" = 2 ∧
      aliasCount (recorded dupEnv ["a"]) "\"fmt\"" "bar" = 2 ∧
      (Run dupEnv ["a"] false).writes =
        [Write.violation "a/x.go" 1 21 "foo" "\"fmt\""
            "No consensus alias exists for this import in the project (\"bar\" and \"foo\" are both used 2 times each)",
          Write.violation "a/x.go" 2 8 "foo" "\"fmt\""
            "No consensus alias exists for this import in the project (\"bar\" and \"foo\" are both used 2 times each)",
          Write.violation "a/y.go" 1 21 "bar" "\"fmt\""
            "No consensus alias exists for this import in the project (\"bar\" and \"foo\" are both used 2 times each)",
          Write.violation "a/z.go" 1 21 "bar" "\"fmt\""
            "No consensus alias exists for this import in the project (\"bar\" and \"foo\" are both used 2 times each)"]) ∧
    ∃ (init : List String) (last : String) (n : Nat),
      init ≠ [] ∧ (init ++ [last]).Pairwise strLt ∧
      (∀ c, c ∈ init ++ [last] ↔ ImportedAs (recorded dupEnv ["a"]) "\"fmt\"" c) ∧
      (Run dupEnv ["a"] false).writes.filter (Write.isAbout "\"fmt\"") =
        ((byFile (recorded dupEnv ["a"])).filter (usesExplicitAlias "\"fmt\"")).map (fun o =>
          Write.violation o.file o.Pos.Line o.Pos.Column o.Alias.name "\"fmt\""
            ("No consensus alias exists for this import in the project (" ++
              (", ".intercalate (init.map quote) ++ " and " ++ quote last) ++ " are " ++
              (if init.length = 1 then "both" else "all") ++ " used " ++
              (if n = 1 then "once" else toString n ++ " times") ++ " each)")) :=
  ⟨by decide, tie_lines dupEnv ["a"] (by decide) "\"fmt\"" "foo" "bar" (by decide)
    (by decide) (by decide) (by decide)
    (fun c hc =>
      (by decide : ∀ c ∈ explicitAliases (recorded dupEnv ["a"]) "\"fmt\"",
        aliasCount (recorded dupEnv ["a"]) "\"fmt\"" c ≤
          aliasCount (recorded dupEnv ["a"]) "\"fmt\"" "foo")
        c (mem_explicitAliases.mpr hc))⟩

/-- C5. Let the `k ≥ 2` explicit aliases of import path `P`, in ascending order
`init ++ [last]`, each be used `n` times, that is, each have `n` recorded
occurrences. Then the recommendation of every alias
of `P`, and of every default-mode line about `P`, is exactly
`No consensus alias exists for this import in the project (<list> are <both|all> used <count> each)`
where `<list>` is the quoted aliases of `init` joined by `", "`, then `" and "`,
then the quoted `last`; the word is `both` when `k = 2` and `all` otherwise; and
`<count>` is `once` when `n = 1` and `<n> times` otherwise. -/
theorem tie_message (env : Env) (pkgPaths : List String) (hok : ExtractsAll env pkgPaths)
    (P : String) (init : List String) (last : String) (n : Nat)
    (hnames : sortStrings (explicitAliases (recorded env pkgPaths) P) = init ++ [last])
    (hinit : init ≠ [])
    (hn : ∀ c, ImportedAs (recorded env pkgPaths) P c →
      aliasCount (recorded env pkgPaths) P c = n) :
    (∀ c, (GetAliasStatus (recorded env pkgPaths) (AliasToken.explicit c) P).Recommendation =
      "No consensus alias exists for this import in the project (" ++
        ", ".intercalate (init.map quote) ++ " and " ++ quote last ++ " are " ++
        (if init.length = 1 then "both" else "all") ++ " used " ++
        (if n = 1 then "once" else toString n ++ " times") ++ " each)") ∧
    (∀ f l c al r, Write.violation f l c al P r ∈ (Run env pkgPaths false).writes →
      r = "No consensus alias exists for this import in the project (" ++
        ", ".intercalate (init.map quote) ++ " and " ++ quote last ++ " are " ++
        (if init.length = 1 then "both" else "all") ++ " used " ++
        (if n = 1 then "once" else toString n ++ " times") ++ " each)") := by
  obtain ⟨a, rest, rfl⟩ : ∃ a rest, init = a :: rest := by
    cases init with
    | nil => exact absurd rfl hinit
    | cons a rest => exact ⟨a, rest, rfl⟩
  have hsorted := sorted_explicitAliases (recorded env pkgPaths) P
  rw [hnames] at hsorted
  have ha : ImportedAs (recorded env pkgPaths) P a := (hsorted.2 a).mp (by simp)
  have hb : ImportedAs (recorded env pkgPaths) P last := (hsorted.2 last).mp (by simp)
  have hab : a ≠ last := by
    have h1 := hsorted.1
    rw [List.cons_append, List.pairwise_cons] at h1
    have := h1.1 last (by simp)
    exact (strLt_iff.mp this).2
  have hstatus : ∀ c, GetAliasStatus (recorded env pkgPaths) (AliasToken.explicit c) P =
      AliasStatus.mk false
        ("No consensus alias exists for this import in the project (" ++
          ", ".intercalate ((a :: rest).map quote) ++ " and " ++ quote last ++ " are " ++
          (if (a :: rest).length = 1 then "both" else "all") ++ " used " ++
          (if n = 1 then "once" else toString n ++ " times") ++ " each)") := by
    intro c
    rw [GetAliasStatus_tie hab ha hb ((hn a ha).trans (hn last hb).symm)
      (fun c hc => le_of_eq ((hn c hc).trans (hn a ha).symm)) c, hnames, hn a ha]
    simp only [noConsensus, List.map_append, List.map_cons, List.map_nil]
    rw [← List.map_cons, englishList_append_singleton _ _ (by simp)]
    simp only [countPhrase, List.length_append, List.length_cons, List.length_nil,
      List.length_map]
    have e : (rest.length + 1 + (0 + 1) = 2) ↔ (rest.length + 1 = 1) := by omega
    simp only [e, String.append_assoc]
  refine ⟨fun c => by rw [hstatus c], ?_⟩
  intro f l c al r hmem
  obtain ⟨o, _, _, hnok, he⟩ := mem_Run_default hok hmem
  simp only [Write.violation.injEq] at he
  obtain ⟨_, _, _, _, hp, hr⟩ := he
  cases hal : o.Alias with
  | explicit x =>
    rw [hal, ← hp, hstatus x] at hr
    exact hr
  | default => rw [hal] at hnok; simp [GetAliasStatus] at hnok
  | blank => rw [hal] at hnok; simp [GetAliasStatus] at hnok
  | dotImport => rw [hal] at hnok; simp [GetAliasStatus] at hnok

set_option maxRecDepth 100000 in
theorem tie_message_witness :
    (ExtractsAll tieEnv ["proj", "proj", "proj/bar", "proj/bar"] ∧
      aliasCount (recorded tieEnv ["proj", "proj", "proj/bar", "proj/bar"]) "\"fmt\"" "foo" = 2 ∧
      (GetAliasStatus (recorded tieEnv ["proj", "proj", "proj/bar", "proj/bar"])
          (AliasToken.explicit "foo") "\"fmt\"").Recommendation =
        "No consensus alias exists for this import in the project (\"bar\" and \"foo\" are both used 2 times each)") ∧
    (GetAliasStatus (recorded threeEnv threePkgs) (AliasToken.explicit "foo") "\"fmt\"").Recommendation =
      "No consensus alias exists for this import in the project (\"bar\", \"baz\" and \"foo\" are all used once each)" :=
  ⟨⟨by decide, by decide,
    ((tie_message tieEnv ["proj", "proj", "proj/bar", "proj/bar"] (by decide) "\"fmt\"" ["bar"]
      "foo" 2 (by decide) (by decide)
      (fun c hc =>
        (by decide : ∀ c ∈ explicitAliases
            (recorded tieEnv ["proj", "proj", "proj/bar", "proj/bar"]) "\"fmt\"",
          aliasCount (recorded tieEnv ["proj", "proj", "proj/bar", "proj/bar"]) "\"fmt\"" c = 2)
          c (mem_explicitAliases.mpr hc))).1 "foo").trans (by decide)⟩,
  ((tie_message threeEnv threePkgs (by decide) "\"fmt\"" ["bar", "baz"] "foo" 1 (by decide)
    (by decide)
    (fun c hc =>
      (by decide : ∀ c ∈ explicitAliases (recorded threeEnv threePkgs) "\"fmt\"",
        aliasCount (recorded threeEnv threePkgs) "\"fmt\"" c = 1)
        c (mem_explicitAliases.mpr hc))).1 "foo").trans (by decide)⟩

/-- C6. When extraction fails on some file, `Run` stops at the first failing file
`f` of the processing order: it returns the error
`failed to determine imports in file <f>: <cause>`, makes no write in either
mode, and its trace of package loads and file extractions is an initial segment
of the trace of a full run that ends with the extraction of `f`, the files
extracted being those before `f` and `f` itself. -/
theorem extraction_failure (env : Env) (pkgPaths : List String) (verbose : Bool)
    (hfail : ¬ ExtractsAll env pkgPaths) :
    ∃ pre f post e, filesInOrder env pkgPaths = pre ++ f :: post ∧
      (∀ g ∈ pre, extractOK env g = true) ∧
      env.parseImports f = Except.error e ∧
      (Run env pkgPaths verbose).err =
        some ("failed to determine imports in file " ++ f ++ ": " ++ e) ∧
      (Run env pkgPaths verbose).writes = [] ∧
      (Run env pkgPaths verbose).output = "" ∧
      (Run env pkgPaths verbose).trace.filterMap Event.file? = pre ++ [f] ∧
      (Run env pkgPaths verbose).trace.getLast? = some (Event.addFile f) ∧
      ∃ rest, fullTrace env pkgPaths = (Run env pkgPaths verbose).trace ++ rest := by
  rcases loadPkgs_spec env pkgPaths [] with
    ⟨hall, _⟩ | ⟨pre, f, post, e, tr, rest, hsplit, hpre, herr, hres, htr, hfm, hlast⟩
  · exact absurd (fun f hf => extractOK_iff.mpr (hall f hf)) hfail
  · refine ⟨pre, f, post, e, hsplit, fun g hg => extractOK_iff.mpr (hpre g hg), herr, ?_⟩
    have hrun : Run env pkgPaths verbose = Result.mk [] (some (wrapErr e f)) tr := by
      unfold Run
      rw [hres]
    rw [hrun]
    exact ⟨rfl, rfl, rfl, hfm, hlast, rest, htr⟩

theorem extraction_failure_witness :
    ¬ ExtractsAll failEnv ["proj", "proj/z"] ∧
      ∃ pre f post e, filesInOrder failEnv ["proj", "proj/z"] = pre ++ f :: post ∧
        (∀ g ∈ pre, extractOK failEnv g = true) ∧
        failEnv.parseImports f = Except.error e ∧
        (Run failEnv ["proj", "proj/z"] true).err =
          some ("failed to determine imports in file " ++ f ++ ": " ++ e) ∧
        (Run failEnv ["proj", "proj/z"] true).writes = [] ∧
        (Run failEnv ["proj", "proj/z"] true).output = "" ∧
        (Run failEnv ["proj", "proj/z"] true).trace.filterMap Event.file? = pre ++ [f] ∧
        (Run failEnv ["proj", "proj/z"] true).trace.getLast? = some (Event.addFile f) ∧
        ∃ rest, fullTrace failEnv ["proj", "proj/z"] =
          (Run failEnv ["proj", "proj/z"] true).trace ++ rest :=
  ⟨by decide, extraction_failure failEnv ["proj", "proj/z"] true (by decide)⟩

/-- The run on the unreadable file, evaluated. -/
theorem failEnv_run :
    Run failEnv ["proj", "proj/z"] false =
      Result.mk []
        (some "failed to determine imports in file proj/b.go: open proj/b.go: no such file or directory")
        [Event.importDir "proj", Event.addFile "proj/a.go", Event.addFile "proj/b.go"] := by
  decide

theorem flatMap_congr_mem {α β : Type} {l : List α} {f g : α → List β}
    (h : ∀ a ∈ l, f a = g a) : l.flatMap f = l.flatMap g := by
  induction l with
  | nil => rfl
  | cons x xs ih =>
    rw [List.flatMap_cons, List.flatMap_cons, h x (by simp),
      ih (fun a ha => h a (by simp [ha]))]

/-- Grouping a list by a key, over a duplicate-free list of all keys, permutes it. -/
theorem flatMap_filter_perm {α : Type} (key : α → String) (ks : List String) (hnd : ks.Nodup)
    (l : List α) (hall : ∀ x ∈ l, key x ∈ ks) :
    (ks.flatMap (fun k => l.filter (fun x => key x = k))).Perm l := by
  induction ks generalizing l with
  | nil =>
    cases l with
    | nil => exact List.Perm.refl _
    | cons x xs => exact absurd (hall x (by simp)) (by simp)
  | cons k ks ih =>
    rw [List.nodup_cons] at hnd
    rw [List.flatMap_cons]
    have hrest : ks.flatMap (fun k' => l.filter (fun x => key x = k')) =
        ks.flatMap (fun k' => (l.filter (fun x => ¬ key x = k)).filter (fun x => key x = k')) := by
      apply flatMap_congr_mem
      intro k' hk'
      rw [List.filter_filter]
      apply List.filter_congr
      intro x _
      by_cases e : key x = k'
      · have hk : ¬ k' = k := fun e' => hnd.1 (e' ▸ hk')
        simp [e, hk]
      · simp [e]
    rw [hrest]
    have hih := ih hnd.2 (l.filter (fun x => ¬ key x = k)) (by
      intro x hx
      have hx' := List.mem_filter.mp hx
      have hne : ¬ key x = k := by simpa using hx'.2
      rcases List.mem_cons.mp (hall x hx'.1) with e | h
      · exact absurd e hne
      · exact h)
    refine (List.Perm.append_left _ hih).trans ?_
    have := List.filter_append_perm (fun x => decide (key x = k)) l
    simpa using this

theorem byFile_perm (reg : Registry) : (byFile reg).Perm reg := by
  unfold byFile sourceFiles
  apply flatMap_filter_perm (fun o : ImportOccurrence => o.file)
  · exact sortStrings_nodup (List.nodup_dedup _)
  · intro o ho
    rw [mem_sortStrings, List.mem_dedup, List.mem_map]
    exact ⟨o, ho, rfl⟩

theorem sourceFiles_strict (reg : Registry) : (sourceFiles reg).Pairwise strLt :=
  sortStrings_strict (List.nodup_dedup _)

/-- C7. In default mode the writes of `Run` are exactly the lines of the recorded
occurrences, taken file by file with the file paths strictly ascending and, within
a file, in the order of recording; an occurrence has a line exactly when its import
path is conflicted and its alias status is not OK, and then the line is the
violation line of that occurrence; the occurrences so traversed are a permutation
of the registry. -/
theorem default_report (env : Env) (pkgPaths : List String) (hok : ExtractsAll env pkgPaths) :
    (Run env pkgPaths false).writes =
        ((sourceFiles (recorded env pkgPaths)).flatMap (fun f =>
          (recorded env pkgPaths).filter (fun o => o.file = f))).filterMap
            (lineOf (recorded env pkgPaths)) ∧
      (sourceFiles (recorded env pkgPaths)).Pairwise strLt ∧
      (∀ f, f ∈ sourceFiles (recorded env pkgPaths) ↔ ∃ o ∈ recorded env pkgPaths, o.file = f) ∧
      (((sourceFiles (recorded env pkgPaths)).flatMap (fun f =>
          (recorded env pkgPaths).filter (fun o => o.file = f))).Perm (recorded env pkgPaths)) ∧
      (∀ o, Conflicted (recorded env pkgPaths) o.ImportPath →
        (GetAliasStatus (recorded env pkgPaths) o.Alias o.ImportPath).OK = false →
        lineOf (recorded env pkgPaths) o =
          some (Write.violation o.file o.Pos.Line o.Pos.Column o.Alias.name o.ImportPath
            (GetAliasStatus (recorded env pkgPaths) o.Alias o.ImportPath).Recommendation)) ∧
      (∀ o, ¬ (Conflicted (recorded env pkgPaths) o.ImportPath ∧
          (GetAliasStatus (recorded env pkgPaths) o.Alias o.ImportPath).OK = false) →
        lineOf (recorded env pkgPaths) o = none) ∧
      (∀ f l c a p r, (Write.violation f l c a p r).render =
        f ++ ":" ++ toString l ++ ":" ++ toString c ++ ": uses alias \"" ++ a ++
          "\" to import package " ++ p ++ ". " ++ r ++ ".\n") := by
  refine ⟨Run_default_writes hok, sourceFiles_strict _, ?_, byFile_perm _, ?_, ?_, ?_⟩
  · intro f
    unfold sourceFiles
    rw [mem_sortStrings, List.mem_dedup, List.mem_map]
  · intro o hc hs
    rw [lineOf_of_conflicted hc, hs]
    rfl
  · intro o h
    by_cases hc : Conflicted (recorded env pkgPaths) o.ImportPath
    · rw [lineOf_of_conflicted hc]
      have : (GetAliasStatus (recorded env pkgPaths) o.Alias o.ImportPath).OK = true := by
        cases hs : (GetAliasStatus (recorded env pkgPaths) o.Alias o.ImportPath).OK with
        | true => rfl
        | false => exact absurd ⟨hc, hs⟩ h
      rw [this]
      rfl
    · exact lineOf_eq_none_of_not_conflicted hc
  · intro f l c a p r
    apply String.ext
    simp only [Write.render, quote, String.data_append, List.append_assoc]
    rfl

set_option maxRecDepth 100000 in
theorem default_report_witness :
    ExtractsAll multiEnv multiPkgs ∧
      (Run multiEnv multiPkgs false).writes =
        [Write.violation "proj/bar/bar.go" 1 21 "bar" "\"fmt\""
            "No consensus alias exists for this import in the project (\"bar\" and \"foo\" are both used once each)",
          Write.violation "proj/baz/baz.go" 1 21 "baz" "\"io\""
            "No consensus alias exists for this import in the project (\"baz\" and \"other\" are both used once each)",
          Write.violation "proj/foo.go" 1 22 "foo" "\"fmt\""
            "No consensus alias exists for this import in the project (\"bar\" and \"foo\" are both used once each)",
          Write.violation "proj/other/other.go" 1 23 "other" "\"io\""
            "No consensus alias exists for this import in the project (\"baz\" and \"other\" are both used once each)"] :=
  ⟨by decide, ((default_report multiEnv multiPkgs (by decide)).1).trans (by decide)⟩

theorem aliasesForPath_names (reg : Registry) (k : String) :
    ((aliasesForPath reg k).map (fun x => x.Alias)).Nodup ∧
      ∀ a, a ∈ (aliasesForPath reg k).map (fun x => x.Alias) ↔ ImportedAs reg k a :=
  ⟨(aliasesForPath_names_perm reg k).nodup_iff.mpr (explicitAliases_nodup reg k),
    fun _ => (aliasesForPath_names_perm reg k).mem_iff.trans mem_explicitAliases⟩

/-- C8. In verbose mode the writes of `Run` are, for each conflicted import path
once and in strictly ascending order of import path, the header
`<importPath> is imported using multiple different aliases:` followed by one group
for every distinct explicit alias of that path; a path that is not conflicted has
no header. -/
theorem verbose_report (env : Env) (pkgPaths : List String) (hok : ExtractsAll env pkgPaths) :
    (Run env pkgPaths true).writes =
        (pkgsWithMultipleAliases (ImportsToAliases (recorded env pkgPaths))).flatMap (fun k =>
          Write.header k :: (aliasesForPath (recorded env pkgPaths) k).map groupWrite) ∧
      (pkgsWithMultipleAliases (ImportsToAliases (recorded env pkgPaths))).Pairwise strLt ∧
      (∀ k, k ∈ pkgsWithMultipleAliases (ImportsToAliases (recorded env pkgPaths)) ↔
        Conflicted (recorded env pkgPaths) k) ∧
      (∀ k, ((aliasesForPath (recorded env pkgPaths) k).map (fun x => x.Alias)).Nodup ∧
        ∀ a, a ∈ (aliasesForPath (recorded env pkgPaths) k).map (fun x => x.Alias) ↔
          ImportedAs (recorded env pkgPaths) k a) ∧
      (∀ x, groupWrite x = Write.group x.Alias (numFilesMsg x) (occurrenceLines x)) ∧
      (∀ k, (Write.header k).render = k ++ " is imported using multiple different aliases:\n") ∧
      (∀ P, ¬ Conflicted (recorded env pkgPaths) P →
        Write.header P ∉ (Run env pkgPaths true).writes) :=
  ⟨Run_verbose_writes hok, pkgsWithMultipleAliases_strict _,
    fun _ => mem_pkgsWithMultipleAliases, fun k => aliasesForPath_names _ k, fun _ => rfl,
    fun _ => rfl, fun _ hP h => hP (mem_Run_verbose hok h)⟩

set_option maxRecDepth 100000 in
theorem verbose_report_witness :
    ExtractsAll multiEnv multiPkgs ∧
      (Run multiEnv multiPkgs true).writes =
        [Write.header "\"fmt\"",
          Write.group "bar" "(1 file)" ["proj/bar/bar.go:1:21"],
          Write.group "foo" "(1 file)" ["proj/foo.go:1:22"],
          Write.header "\"io\"",
          Write.group "baz" "(1 file)" ["proj/baz/baz.go:1:21"],
          Write.group "other" "(1 file)" ["proj/other/other.go:1:23"]] :=
  ⟨by decide, ((verbose_report multiEnv multiPkgs (by decide)).1).trans (by decide)⟩

theorem aliasesForPath_strict (reg : Registry) (k : String) :
    (aliasesForPath reg k).Pairwise (fun x y =>
      aliasCount reg k y.Alias < aliasCount reg k x.Alias ∨
        (aliasCount reg k x.Alias = aliasCount reg k y.Alias ∧ strLt x.Alias y.Alias)) := by
  have hs : (aliasesForPath reg k).Pairwise (aliasOrder reg k) := aliasesForPath_sorted reg k
  have hn : (aliasesForPath reg k).Pairwise (fun x y => x.Alias ≠ y.Alias) :=
    List.pairwise_map.mp (aliasesForPath_names reg k).1
  refine (hs.and hn).imp ?_
  rintro x y ⟨h | ⟨h₁, h₂⟩, hne⟩
  · exact Or.inl h
  · exact Or.inr ⟨h₁, strLt_iff.mpr ⟨h₂, hne⟩⟩

theorem occurrenceLines_length (x : AliasInfo) :
    (occurrenceLines x).length = x.Occurrences.length := by
  unfold occurrenceLines
  rw [sortStrings_length, List.length_map]

theorem verbose_split {l : List String} (hnd : l.Nodup) {k : String} (h : k ∈ l)
    (g : String → List AliasInfo) :
    ∃ before after,
      l.flatMap (fun k' => Write.header k' :: (g k').map groupWrite) =
        before ++ (Write.header k :: (g k).map groupWrite) ++ after ∧
      Write.header k ∉ before ∧ Write.header k ∉ after ∧
      (after = [] ∨ ∃ k' rest, after = Write.header k' :: rest) := by
  obtain ⟨l₁, l₂, rfl⟩ := List.append_of_mem h
  have hk : k ∉ l₁ ++ l₂ := (List.nodup_cons.mp (List.nodup_middle.mp hnd)).1
  have hk₁ : k ∉ l₁ := fun h' => hk (List.mem_append_left _ h')
  have hk₂ : k ∉ l₂ := fun h' => hk (List.mem_append_right _ h')
  have hnot : ∀ l' : List String, k ∉ l' →
      Write.header k ∉ l'.flatMap (fun k' => Write.header k' :: (g k').map groupWrite) := by
    intro l' hl hmem
    rw [List.mem_flatMap] at hmem
    obtain ⟨k', hk', hm⟩ := hmem
    rcases List.mem_cons.mp hm with e | hg
    · cases e
      exact hl hk'
    · obtain ⟨x, _, hx⟩ := List.mem_map.mp hg
      cases hx
  refine ⟨l₁.flatMap (fun k' => Write.header k' :: (g k').map groupWrite),
    l₂.flatMap (fun k' => Write.header k' :: (g k').map groupWrite),
    by simp [List.flatMap_append, List.flatMap_cons], hnot l₁ hk₁, hnot l₂ hk₂, ?_⟩
  cases l₂ with
  | nil => exact Or.inl rfl
  | cons k' t =>
    exact Or.inr ⟨k', (g k').map groupWrite ++
      t.flatMap (fun k' => Write.header k' :: (g k').map groupWrite), by simp [List.flatMap_cons]⟩

/-- C9. In verbose mode, for every conflicted import path `k`, the writes of `Run`
hold the header of `k` once, followed by the alias groups of `k` up to the next
header or the end of the report; these groups are one for every explicit alias of
`k`, and of two groups the earlier one is of the alias with more recorded
occurrences, or, with as many occurrences, of the alias that is smaller in
ascending order. -/
theorem verbose_group_order (env : Env) (pkgPaths : List String)
    (hok : ExtractsAll env pkgPaths) (k : String)
    (hk : Conflicted (recorded env pkgPaths) k) :
    ∃ (before : List Write) (groups : List AliasInfo) (after : List Write),
      (Run env pkgPaths true).writes =
        before ++ (Write.header k :: groups.map groupWrite) ++ after ∧
      Write.header k ∉ before ∧ Write.header k ∉ after ∧
      (after = [] ∨ ∃ k' rest, after = Write.header k' :: rest) ∧
      (∀ a, a ∈ groups.map (fun x => x.Alias) ↔ ImportedAs (recorded env pkgPaths) k a) ∧
      groups.Pairwise (fun x y =>
        aliasCount (recorded env pkgPaths) k y.Alias <
            aliasCount (recorded env pkgPaths) k x.Alias ∨
          (aliasCount (recorded env pkgPaths) k x.Alias =
              aliasCount (recorded env pkgPaths) k y.Alias ∧
            strLt x.Alias y.Alias)) := by
  obtain ⟨before, after, hw, hb, ha, hafter⟩ :=
    verbose_split (pkgsWithMultipleAliases_nodup (recorded env pkgPaths))
      (mem_pkgsWithMultipleAliases.mpr hk) (aliasesForPath (recorded env pkgPaths))
  exact ⟨before, aliasesForPath (recorded env pkgPaths) k, after,
    (Run_verbose_writes hok).trans hw, hb, ha, hafter,
    (aliasesForPath_names _ k).2, aliasesForPath_strict _ k⟩

set_option maxRecDepth 100000 in
theorem verbose_group_order_witness :
    (ExtractsAll commonEnv threePkgs ∧
      (Run commonEnv threePkgs true).writes =
        [Write.header "\"fmt\"",
          Write.group "foo" "(2 files)" ["proj/baz/baz.go:1:21", "proj/foo.go:1:22"],
          Write.group "bar" "(1 file)" ["proj/bar/bar.go:1:21"]] ∧
      aliasCount (recorded commonEnv threePkgs) "\"fmt\"" "foo" = 2 ∧
      aliasCount (recorded commonEnv threePkgs) "\"fmt\"" "bar" = 1) ∧
    ∃ (before : List Write) (groups : List AliasInfo) (after : List Write),
      (Run commonEnv threePkgs true).writes =
        before ++ (Write.header "\"fmt\"" :: groups.map groupWrite) ++ after ∧
      Write.header "\"fmt\"" ∉ before ∧ Write.header "\"fmt\"" ∉ after ∧
      (after = [] ∨ ∃ k' rest, after = Write.header k' :: rest) ∧
      (∀ a, a ∈ groups.map (fun x => x.Alias) ↔
        ImportedAs (recorded commonEnv threePkgs) "\"fmt\"" a) ∧
      groups.Pairwise (fun x y =>
        aliasCount (recorded commonEnv threePkgs) "\"fmt\"" y.Alias <
            aliasCount (recorded commonEnv threePkgs) "\"fmt\"" x.Alias ∨
          (aliasCount (recorded commonEnv threePkgs) "\"fmt\"" x.Alias =
              aliasCount (recorded commonEnv threePkgs) "\"fmt\"" y.Alias ∧
            strLt x.Alias y.Alias)) :=
  ⟨by decide, verbose_group_order commonEnv threePkgs (by decide) "\"fmt\""
    ⟨"foo", "bar", by decide, by decide, by decide⟩⟩

set_option maxRecDepth 100000 in
/-- A package path given twice is loaded and extracted twice (importalias.go:30-45),
so `proj/foo.go` contributes two occurrences of `foo` in one file: `foo`, with two
occurrences against one of `bar`, is the consensus alias and its group comes
first. -/
theorem repeated_package_output :
    aliasCount (recorded tieEnv ["proj", "proj", "proj/bar"]) "\"fmt\"" "foo" = 2 ∧
      aliasCount (recorded tieEnv ["proj", "proj", "proj/bar"]) "\"fmt\"" "bar" = 1 ∧
      (Run tieEnv ["proj", "proj", "proj/bar"] true).writes =
        [Write.header "\"fmt\"",
          Write.group "foo" "(1 file)" ["proj/foo.go:1:22"],
          Write.group "bar" "(1 file)" ["proj/bar/bar.go:1:21"]] ∧
      (Run tieEnv ["proj", "proj", "proj/bar"] false).writes =
        [Write.violation "proj/bar/bar.go" 1 21 "bar" "\"fmt\"" "Use alias \"foo\" instead"] := by
  decide

theorem lex_append_of_not_initial {l₁ l₂ : List Char} (h : l₁ < l₂)
    (hnp : ¬ ∃ t, l₂ = l₁ ++ t) (s₁ s₂ : List Char) : l₁ ++ s₁ < l₂ ++ s₂ := by
  induction h with
  | nil => exact absurd ⟨_, rfl⟩ hnp
  | cons _ ih =>
    refine List.Lex.cons (ih ?_)
    rintro ⟨t, ht⟩
    exact hnp ⟨t, by rw [ht]; rfl⟩
  | rel h => exact List.Lex.rel h

theorem occurrenceLine_data (f : String) (p : Position) :
    (occurrenceLine f p).data =
      f.data ++ (":" ++ toString p.Line ++ ":" ++ toString p.Column).data := by
  simp only [occurrenceLine, String.data_append, List.append_assoc]

theorem occurrenceLine_lt {f₁ f₂ : String} (h : strLt f₁ f₂) (hnp : ¬ ∃ t, f₂ = f₁ ++ t)
    (p₁ p₂ : Position) : strLt (occurrenceLine f₁ p₁) (occurrenceLine f₂ p₂) := by
  unfold strLt
  rw [occurrenceLine_data, occurrenceLine_data]
  apply lex_append_of_not_initial h
  rintro ⟨t, ht⟩
  exact hnp ⟨String.mk t, String.ext (by rw [String.data_append, ht])⟩

theorem sublist_pair_of_sorted {l : List String} (hs : l.Pairwise strLe) {a b : String}
    (ha : a ∈ l) (hb : b ∈ l) (hab : ¬ strLe b a) : List.Sublist [a, b] l := by
  induction l with
  | nil => simp at ha
  | cons x xs ih =>
    rw [List.pairwise_cons] at hs
    rcases List.mem_cons.mp ha with rfl | ha'
    · rcases List.mem_cons.mp hb with rfl | hb'
      · exact absurd (strLe_refl _) hab
      · exact List.Sublist.cons₂ _ (List.singleton_sublist.mpr hb')
    · rcases List.mem_cons.mp hb with rfl | hb'
      · exact absurd (hs.1 a ha') hab
      · exact List.Sublist.cons _ (ih hs.2 ha' hb')

theorem mem_occurrenceLines {x : AliasInfo} {f : String} {p : Position}
    (h : (f, p) ∈ x.Occurrences) : occurrenceLine f p ∈ occurrenceLines x := by
  unfold occurrenceLines
  rw [mem_sortStrings, List.mem_map]
  exact ⟨(f, p), h, rfl⟩

set_option maxRecDepth 100000 in
/-- C10, counterexample. The files `a/b.go` and `a/b.go.go` both import `"fmt"` as
`foo`; the path `a/b.go` is the smaller, yet verbose `Run` writes the occurrence of
`a/b.go.go` first: the claim that of any two occurrences of a group the one with
the smaller file path comes first fails. -/
theorem occurrence_lines_counterexample :
    ExtractsAll nestedEnv ["a"] ∧
      (Run nestedEnv ["a"] true).writes =
        [Write.header "\"fmt\"",
          Write.group "foo" "(2 files)" ["a/b.go.go:1:21", "a/b.go:1:21"],
          Write.group "bar" "(1 file)" ["a/c.go:1:21"]] ∧
      strLt "a/b.go" "a/b.go.go" ∧
      ¬ (∀ k x, x ∈ aliasesForPath (recorded nestedEnv ["a"]) k →
        ∀ f₁ p₁ f₂ p₂, (f₁, p₁) ∈ x.Occurrences → (f₂, p₂) ∈ x.Occurrences → strLt f₁ f₂ →
          List.Sublist [occurrenceLine f₁ p₁, occurrenceLine f₂ p₂] (occurrenceLines x)) := by
  refine ⟨by decide, by decide, by decide, ?_⟩
  intro h
  have h' := h "\"fmt\""
    (AliasInfo.mk "foo" [("a/b.go", Position.mk 1 21), ("a/b.go.go", Position.mk 1 21)])
    (by decide) "a/b.go" (Position.mk 1 21) "a/b.go.go" (Position.mk 1 21) (by decide) (by decide)
    (by decide)
  exact absurd h' (by decide)

/-- C10, amended. In verbose mode the occurrence lines of every alias group are
the texts `<file>:<line>:<column>` of the occurrences of the alias, in ascending
lexicographic order of the whole text; of two occurrences whose file paths differ,
the one with the smaller file path comes first unless the smaller path is an
initial segment of the larger. -/
theorem occurrence_lines_sorted (env : Env) (pkgPaths : List String)
    (hok : ExtractsAll env pkgPaths) :
    (Run env pkgPaths true).writes =
        (pkgsWithMultipleAliases (ImportsToAliases (recorded env pkgPaths))).flatMap (fun k =>
          Write.header k :: (aliasesForPath (recorded env pkgPaths) k).map (fun x =>
            Write.group x.Alias (numFilesMsg x) (occurrenceLines x))) ∧
      (∀ x : AliasInfo, (occurrenceLines x).Pairwise strLe ∧
        (occurrenceLines x).Perm (x.Occurrences.map (fun kv => occurrenceLine kv.1 kv.2)) ∧
        ∀ f₁ p₁ f₂ p₂, (f₁, p₁) ∈ x.Occurrences → (f₂, p₂) ∈ x.Occurrences → strLt f₁ f₂ →
          (¬ ∃ t, f₂ = f₁ ++ t) →
          List.Sublist [occurrenceLine f₁ p₁, occurrenceLine f₂ p₂] (occurrenceLines x)) ∧
      (∀ f p, occurrenceLine f p = f ++ ":" ++ toString p.Line ++ ":" ++ toString p.Column) := by
  refine ⟨Run_verbose_writes hok, ?_, fun _ _ => rfl⟩
  intro x
  have hs : (occurrenceLines x).Pairwise strLe := sortStrings_sorted _
  refine ⟨hs, sortStrings_perm _, ?_⟩
  intro f₁ p₁ f₂ p₂ h₁ h₂ hlt hnp
  apply sublist_pair_of_sorted hs (mem_occurrenceLines h₁) (mem_occurrenceLines h₂)
  intro hle
  exact (not_strLt_iff.mpr hle) (occurrenceLine_lt hlt hnp p₁ p₂)

set_option maxRecDepth 100000 in
theorem occurrence_lines_sorted_witness :
    ExtractsAll nestedEnv ["a"] ∧
      (Run nestedEnv ["a"] true).writes =
        [Write.header "\"fmt\"",
          Write.group "foo" "(2 files)" ["a/b.go.go:1:21", "a/b.go:1:21"],
          Write.group "bar" "(1 file)" ["a/c.go:1:21"]] :=
  ⟨by decide, ((occurrence_lines_sorted nestedEnv ["a"] (by decide)).1).trans (by decide)⟩

theorem mapInsert_keys_mem {α : Type} (m : List (String × α)) (k : String) (v : α) (k' : String) :
    k' ∈ (mapInsert m k v).map (fun kv => kv.1) ↔ k' = k ∨ k' ∈ m.map (fun kv => kv.1) := by
  induction m with
  | nil => simp [mapInsert]
  | cons x xs ih =>
    obtain ⟨xk, xv⟩ := x
    simp only [mapInsert]
    by_cases h : xk = k
    · subst h
      simp
    · rw [if_neg h]
      simp only [List.map_cons, List.mem_cons, ih]
      tauto

theorem mapInsert_keys_nodup {α : Type} (m : List (String × α)) (k : String) (v : α)
    (h : (m.map (fun kv => kv.1)).Nodup) : ((mapInsert m k v).map (fun kv => kv.1)).Nodup := by
  induction m with
  | nil => simp [mapInsert]
  | cons x xs ih =>
    obtain ⟨xk, xv⟩ := x
    simp only [List.map_cons, List.nodup_cons] at h
    simp only [mapInsert]
    by_cases e : xk = k
    · subst e
      simpa using h
    · rw [if_neg e]
      simp only [List.map_cons, List.nodup_cons]
      refine ⟨?_, ih h.2⟩
      intro hm
      rcases (mapInsert_keys_mem xs k v xk).mp hm with e' | hm'
      · exact e e'
      · exact h.1 hm'

theorem foldl_occurrences_keys (importPath a : String) (l : Registry)
    (m : List (String × Position)) (hm : (m.map (fun kv => kv.1)).Nodup) :
    ((l.foldl (fun m o =>
        if o.ImportPath = importPath ∧ o.Alias = AliasToken.explicit a then
          mapInsert m o.file o.Pos else m) m).map (fun kv => kv.1)).Nodup ∧
      ∀ k, k ∈ (l.foldl (fun m o =>
        if o.ImportPath = importPath ∧ o.Alias = AliasToken.explicit a then
          mapInsert m o.file o.Pos else m) m).map (fun kv => kv.1) ↔
        k ∈ m.map (fun kv => kv.1) ∨
          ∃ o ∈ l, (o.ImportPath = importPath ∧ o.Alias = AliasToken.explicit a) ∧ o.file = k := by
  induction l generalizing m with
  | nil => simp [hm]
  | cons x xs ih =>
    simp only [List.foldl_cons]
    by_cases hx : x.ImportPath = importPath ∧ x.Alias = AliasToken.explicit a
    · rw [if_pos hx]
      obtain ⟨h₁, h₂⟩ := ih (mapInsert m x.file x.Pos) (mapInsert_keys_nodup m _ _ hm)
      refine ⟨h₁, fun k => ?_⟩
      rw [h₂ k, mapInsert_keys_mem]
      constructor
      · rintro ((e | h) | ⟨o, ho, hmo, hf⟩)
        · exact Or.inr ⟨x, by simp, hx, e.symm⟩
        · exact Or.inl h
        · exact Or.inr ⟨o, by simp [ho], hmo, hf⟩
      · rintro (h | ⟨o, ho, hmo, hf⟩)
        · exact Or.inl (Or.inr h)
        · rcases List.mem_cons.mp ho with e | ho'
          · subst e
            exact Or.inl (Or.inl hf.symm)
          · exact Or.inr ⟨o, ho', hmo, hf⟩
    · rw [if_neg hx]
      obtain ⟨h₁, h₂⟩ := ih m hm
      refine ⟨h₁, fun k => ?_⟩
      rw [h₂ k]
      constructor
      · rintro (h | ⟨o, ho, hmo, hf⟩)
        · exact Or.inl h
        · exact Or.inr ⟨o, by simp [ho], hmo, hf⟩
      · rintro (h | ⟨o, ho, hmo, hf⟩)
        · exact Or.inl h
        · rcases List.mem_cons.mp ho with e | ho'
          · subst e
            exact absurd hmo hx
          · exact Or.inr ⟨o, ho', hmo, hf⟩

/-- The `Occurrences` map of an alias has one entry for each file in which the
path is imported under that alias. -/
theorem occurrencesOf_keys (reg : Registry) (importPath a : String) :
    ((occurrencesOf reg importPath a).map (fun kv => kv.1)).Perm (filesOf reg importPath a) := by
  obtain ⟨h₁, h₂⟩ := foldl_occurrences_keys importPath a reg [] (by simp)
  unfold occurrencesOf filesOf
  rw [List.perm_ext_iff_of_nodup h₁ (List.nodup_dedup _)]
  intro k
  rw [h₂ k, List.mem_dedup]
  constructor
  · rintro (h | ⟨o, ho, hmo, hf⟩)
    · simp at h
    · exact List.mem_map.mpr ⟨o, List.mem_filter.mpr ⟨ho, by simpa using hmo⟩, hf⟩
  · intro h
    obtain ⟨o, ho, hf⟩ := List.mem_map.mp h
    have ho' := List.mem_filter.mp ho
    exact Or.inr ⟨o, ho'.1, by simpa using ho'.2, hf⟩

/-- The `Occurrences` map of an alias has one entry for every file that imports
the path under it. -/
theorem occurrencesOf_length (reg : Registry) (importPath a : String) :
    (occurrencesOf reg importPath a).length = (filesOf reg importPath a).length := by
  have := (occurrencesOf_keys reg importPath a).length_eq
  simpa using this

theorem files_phrase_ne (n : Nat) : "(" ++ toString n ++ " files)" ≠ "(1 file)" := by
  intro h
  have h' := congrArg (fun s : String => s.data.reverse) h
  simp only [String.data_append, List.reverse_append] at h'
  have h2 : " files)".data.reverse = [')', 's', 'e', 'l', 'i', 'f', ' '] := by decide
  have h3 : "(1 file)".data.reverse = [')', 'e', 'l', 'i', 'f', ' ', '1', '('] := by decide
  rw [h2, h3] at h'
  simp at h'

theorem numFilesMsg_eq_one_file (x : AliasInfo) :
    numFilesMsg x = "(1 file)" ↔ x.Occurrences.length = 1 := by
  unfold numFilesMsg
  by_cases h : x.Occurrences.length = 1
  · simp [h]
  · rw [if_neg h]
    exact ⟨fun e => absurd e (files_phrase_ne _), fun e => absurd e h⟩

theorem mem_Run_verbose_group {env : Env} {pkgPaths : List String} (hok : ExtractsAll env pkgPaths)
    {w : Write} (h : w ∈ (Run env pkgPaths true).writes) :
    (∃ k, Conflicted (recorded env pkgPaths) k ∧ w = Write.header k) ∨
      ∃ k x, Conflicted (recorded env pkgPaths) k ∧ x ∈ aliasesForPath (recorded env pkgPaths) k ∧
        w = groupWrite x := by
  rw [Run_verbose_writes hok, List.mem_flatMap] at h
  obtain ⟨k, hk, hmem⟩ := h
  have hc := mem_pkgsWithMultipleAliases.mp hk
  rcases List.mem_cons.mp hmem with e | hg
  · exact Or.inl ⟨k, hc, e⟩
  · obtain ⟨x, hx, rfl⟩ := List.mem_map.mp hg
    exact Or.inr ⟨k, x, hc, hx, rfl⟩

/-- C11. In verbose mode every alias group written by `Run` is the group of an
explicit alias `a` of a conflicted import path `k`; its line is
`\t<a> (<phrase>):`, where with `N` the number of distinct files that import `k`
under `a` the phrase is `1 file` exactly when `N = 1` and `<N> files` otherwise;
and `N` is the number of occurrence lines written under the group. -/
theorem group_file_count (env : Env) (pkgPaths : List String) (hok : ExtractsAll env pkgPaths) :
    (∀ a msg lines, Write.group a msg lines ∈ (Run env pkgPaths true).writes →
      ∃ k, Conflicted (recorded env pkgPaths) k ∧ ImportedAs (recorded env pkgPaths) k a ∧
        msg = (if (filesOf (recorded env pkgPaths) k a).length = 1 then "(1 file)"
          else "(" ++ toString (filesOf (recorded env pkgPaths) k a).length ++ " files)") ∧
        (msg = "(1 file)" ↔ (filesOf (recorded env pkgPaths) k a).length = 1) ∧
        lines.length = (filesOf (recorded env pkgPaths) k a).length) ∧
      (∀ a msg lines, (Write.group a msg lines).render =
        "\t" ++ a ++ " " ++ msg ++ ":\n\t\t" ++ "\n\t\t".intercalate lines ++ "\n") := by
  refine ⟨?_, fun _ _ _ => rfl⟩
  intro a msg lines hmem
  rcases mem_Run_verbose_group hok hmem with ⟨k, _, e⟩ | ⟨k, x, hc, hx, e⟩
  · cases e
  · simp only [groupWrite, Write.group.injEq] at e
    obtain ⟨ha, hmsg, hlines⟩ := e
    obtain ⟨hx1, hx2⟩ := mem_aliasesForPath.mp hx
    have hn : x.Occurrences.length = (filesOf (recorded env pkgPaths) k a).length := by
      rw [hx2, ha]
      exact occurrencesOf_length _ _ _
    refine ⟨k, hc, ha ▸ hx1, ?_, ?_, ?_⟩
    · rw [hmsg, ← hn]
      rfl
    · rw [hmsg, ← hn]
      exact numFilesMsg_eq_one_file x
    · rw [hlines, occurrenceLines_length, hn]

set_option maxRecDepth 100000 in
theorem group_file_count_witness :
    ExtractsAll commonEnv threePkgs ∧
      ∃ k, Conflicted (recorded commonEnv threePkgs) k ∧
        ImportedAs (recorded commonEnv threePkgs) k "foo" ∧
        "(2 files)" = (if (filesOf (recorded commonEnv threePkgs) k "foo").length = 1 then "(1 file)"
          else "(" ++ toString (filesOf (recorded commonEnv threePkgs) k "foo").length ++ " files)") ∧
        ("(2 files)" = "(1 file)" ↔ (filesOf (recorded commonEnv threePkgs) k "foo").length = 1) ∧
        ["proj/baz/baz.go:1:21", "proj/foo.go:1:22"].length =
          (filesOf (recorded commonEnv threePkgs) k "foo").length :=
  ⟨by decide, (group_file_count commonEnv threePkgs (by decide)).1 "foo" "(2 files)"
    ["proj/baz/baz.go:1:21", "proj/foo.go:1:22"] (by decide)⟩

theorem foldl_append_length (l : List String) (acc : String) :
    (l.foldl (fun r s => r ++ s) acc).length = acc.length + (l.map String.length).sum := by
  induction l generalizing acc with
  | nil => simp
  | cons x xs ih =>
    simp only [List.foldl_cons, List.map_cons, List.sum_cons]
    rw [ih, String.length_append]
    omega

theorem join_eq_empty {l : List String} (h : String.join l = "") : ∀ s ∈ l, s = "" := by
  have hlen : (String.join l).length = 0 := by rw [h]; rfl
  unfold String.join at hlen
  rw [foldl_append_length] at hlen
  intro s hs
  have hle : s.length ≤ (l.map String.length).sum :=
    List.single_le_sum (fun _ _ => Nat.zero_le _) _ (List.mem_map.mpr ⟨s, hs, rfl⟩)
  have h0 : s.length = 0 := by
    have : "".length = 0 := rfl
    omega
  exact String.ext (List.length_eq_zero.mp h0)

theorem render_ne_empty (w : Write) : w.render ≠ "" := by
  intro h
  have hlen : w.render.length = 0 := by rw [h]; rfl
  cases w with
  | header k =>
    simp only [Write.render, String.length_append] at hlen
    have : " is imported using multiple different aliases:\n".length = 47 := by decide
    omega
  | group a msg files =>
    simp only [Write.render, String.length_append] at hlen
    have : "\n".length = 1 := by decide
    omega
  | violation f l c a p r =>
    simp only [Write.render, String.length_append] at hlen
    have : ".\n".length = 2 := by decide
    omega

theorem output_eq_empty_iff (r : Result) : r.output = "" ↔ r.writes = [] := by
  constructor
  · intro h
    cases hw : r.writes with
    | nil => rfl
    | cons w ws =>
      have := join_eq_empty h w.render (by rw [hw]; simp)
      exact absurd this (render_ne_empty w)
  · intro h
    unfold Result.output
    rw [h]
    rfl

/-- On a conflicted path some occurrence has a status that is not OK. -/
theorem exists_not_ok_of_conflicted {reg : Registry} {P : String} (h : Conflicted reg P) :
    ∃ o ∈ reg, o.ImportPath = P ∧ (GetAliasStatus reg o.Alias o.ImportPath).OK = false := by
  have hlen := one_lt_length_iff_conflicted.mpr h
  obtain ⟨a, b, hne, ⟨oa, hoa, hpa, haa⟩, ⟨ob, hob, hpb, hab⟩⟩ := h
  have hnl : ¬ (aliasesForPath reg P).length ≤ 1 := by omega
  cases hw : winners reg P (aliasesForPath reg P) with
  | nil =>
    refine ⟨oa, hoa, hpa, ?_⟩
    rw [haa, hpa]
    simp only [GetAliasStatus, if_neg hnl, hw]
  | cons w ws =>
    cases ws with
    | nil =>
      by_cases e : a = w.Alias
      · refine ⟨ob, hob, hpb, ?_⟩
        rw [hab, hpb]
        have : ¬ b = w.Alias := fun e' => hne (e.trans e'.symm)
        simp only [GetAliasStatus, if_neg hnl, hw, if_neg this]
      · refine ⟨oa, hoa, hpa, ?_⟩
        rw [haa, hpa]
        simp only [GetAliasStatus, if_neg hnl, hw, if_neg e]
    | cons w' ws' =>
      refine ⟨oa, hoa, hpa, ?_⟩
      rw [haa, hpa]
      simp only [GetAliasStatus, if_neg hnl, hw]

theorem Run_default_nonempty {env : Env} {pkgPaths : List String} (hok : ExtractsAll env pkgPaths)
    {P : String} (h : Conflicted (recorded env pkgPaths) P) :
    (Run env pkgPaths false).writes ≠ [] := by
  obtain ⟨o, ho, hp, hs⟩ := exists_not_ok_of_conflicted h
  have hl : lineOf (recorded env pkgPaths) o =
      some (Write.violation o.file o.Pos.Line o.Pos.Column o.Alias.name o.ImportPath
        (GetAliasStatus (recorded env pkgPaths) o.Alias o.ImportPath).Recommendation) := by
    rw [lineOf_of_conflicted (hp ▸ h), hs]
    rfl
  have hmem : Write.violation o.file o.Pos.Line o.Pos.Column o.Alias.name o.ImportPath
      (GetAliasStatus (recorded env pkgPaths) o.Alias o.ImportPath).Recommendation ∈
      (Run env pkgPaths false).writes := by
    rw [Run_default_writes hok, List.mem_filterMap]
    exact ⟨o, mem_byFile.mpr ho, hl⟩
  intro hnil
  rw [hnil] at hmem
  cases hmem

theorem Run_err_eq_none_iff {env : Env} {pkgPaths : List String} (hok : ExtractsAll env pkgPaths)
    (verbose : Bool) :
    (Run env pkgPaths verbose).err = none ↔ ∀ p, ¬ Conflicted (recorded env pkgPaths) p := by
  rw [Run_err hok]
  constructor
  · intro h p hp
    have hm := mem_pkgsWithMultipleAliases.mpr hp
    by_cases e : pkgsWithMultipleAliases (ImportsToAliases (recorded env pkgPaths)) = []
    · rw [e] at hm
      cases hm
    · rw [if_neg e] at h
      cases h
  · intro h
    have : pkgsWithMultipleAliases (ImportsToAliases (recorded env pkgPaths)) = [] := by
      rw [List.eq_nil_iff_forall_not_mem]
      intro p hp
      exact h p (mem_pkgsWithMultipleAliases.mp hp)
    rw [if_pos this]

theorem header_mem_Run_verbose {env : Env} {pkgPaths : List String} (hok : ExtractsAll env pkgPaths)
    {P : String} (h : Conflicted (recorded env pkgPaths) P) :
    Write.header P ∈ (Run env pkgPaths true).writes := by
  rw [Run_verbose_writes hok, List.mem_flatMap]
  exact ⟨P, mem_pkgsWithMultipleAliases.mpr h, by simp⟩

/-- C12. For every input without extraction failure the following are equivalent:
the default-mode output of `Run` is empty; the verbose-mode writes of `Run` hold
no header `<importPath> is imported using multiple different aliases:`; `Run`
returns nil (in either mode). -/
theorem outcome_equivalence (env : Env) (pkgPaths : List String)
    (hok : ExtractsAll env pkgPaths) :
    ((Run env pkgPaths false).output = "" ↔
        ∀ k, Write.header k ∉ (Run env pkgPaths true).writes) ∧
      ((∀ k, Write.header k ∉ (Run env pkgPaths true).writes) ↔
        (Run env pkgPaths false).err = none) ∧
      ((Run env pkgPaths false).err = none ↔ (Run env pkgPaths true).err = none) ∧
      ((Run env pkgPaths true).err = none ↔ (Run env pkgPaths false).output = "") := by
  have hA : (Run env pkgPaths false).output = "" ↔ ∀ p, ¬ Conflicted (recorded env pkgPaths) p := by
    rw [output_eq_empty_iff]
    constructor
    · intro h p hp
      exact Run_default_nonempty hok hp h
    · intro h
      exact (Run_of_no_conflict hok h false).2.1
  have hB : (∀ k, Write.header k ∉ (Run env pkgPaths true).writes) ↔
      ∀ p, ¬ Conflicted (recorded env pkgPaths) p :=
    ⟨fun h p hp => h p (header_mem_Run_verbose hok hp),
      fun h k hk => h k (mem_Run_verbose hok hk)⟩
  have hC := Run_err_eq_none_iff hok false
  have hD := Run_err_eq_none_iff hok true
  exact ⟨hA.trans hB.symm, hB.trans hC.symm, hC.trans hD.symm, hD.trans hA.symm⟩

theorem outcome_equivalence_witness :
    ExtractsAll cleanEnv ["proj", "proj/bar"] ∧
      ((Run cleanEnv ["proj", "proj/bar"] true).err = none ↔
        (Run cleanEnv ["proj", "proj/bar"] false).output = "") :=
  ⟨by decide, (outcome_equivalence cleanEnv ["proj", "proj/bar"] (by decide)).2.2.2⟩

theorem Run_trace_initial (env : Env) (pkgPaths : List String) (verbose : Bool) :
    ∃ rest, fullTrace env pkgPaths = (Run env pkgPaths verbose).trace ++ rest := by
  rcases loadPkgs_spec env pkgPaths [] with
    ⟨_, hres⟩ | ⟨pre, f, post, e, tr, rest, _, _, _, hres, htr, _, _⟩
  · refine ⟨[], ?_⟩
    unfold Run
    rw [hres]
    simp
  · refine ⟨rest, ?_⟩
    unfold Run
    rw [hres]
    exact htr

theorem goFilesForPkg_sorted (env : Env) (p : String) :
    (goFilesForPkg env p).Pairwise strLe ∧
      (goFilesForPkg env p).Perm ((env.ImportDir p).GoFiles ++ (env.ImportDir p).TestGoFiles ++
        (env.ImportDir p).XTestGoFiles) :=
  ⟨sortStrings_sorted _, sortStrings_perm _⟩

/-- C14, counterexample. The package has the regular files `main.go`, `z.go`, the
test file `a_test.go` and the external-test file `b_test.go`; `Run` extracts
`a_test.go` and `b_test.go` before `main.go`, not the regular files first. -/
theorem extraction_order_counterexample :
    (Run mixedEnv ["proj"] false).trace =
        [Event.importDir "proj", Event.addFile "proj/a_test.go", Event.addFile "proj/b_test.go",
          Event.addFile "proj/main.go", Event.addFile "proj/z.go"] ∧
      (Run mixedEnv ["proj"] false).trace.filterMap Event.file? ≠
        (((mixedEnv.ImportDir "proj").GoFiles ++ (mixedEnv.ImportDir "proj").TestGoFiles ++
          (mixedEnv.ImportDir "proj").XTestGoFiles).map (mixedEnv.Join "proj")) := by
  decide

/-- C14, amended. For every package path `Run` hands the files of the package to
the extractor in ascending lexicographic order of file name, the regular, test and
external-test files sorted together as one list: the trace of a run is an initial
segment of the packages in argument order, each followed by its files in that
order, and the whole of it when no extraction fails. -/
theorem extraction_order (env : Env) (pkgPaths : List String) (verbose : Bool) :
    (∃ rest, pkgPaths.flatMap (fun p =>
        Event.importDir p :: (goFilesForPkg env p).map (fun n => Event.addFile (env.Join p n))) =
      (Run env pkgPaths verbose).trace ++ rest) ∧
    (ExtractsAll env pkgPaths → (Run env pkgPaths verbose).trace =
      pkgPaths.flatMap (fun p =>
        Event.importDir p :: (goFilesForPkg env p).map (fun n => Event.addFile (env.Join p n)))) ∧
    (∀ p, (goFilesForPkg env p).Pairwise strLe ∧
      (goFilesForPkg env p).Perm ((env.ImportDir p).GoFiles ++ (env.ImportDir p).TestGoFiles ++
        (env.ImportDir p).XTestGoFiles)) := by
  refine ⟨Run_trace_initial env pkgPaths verbose, ?_, goFilesForPkg_sorted env⟩
  intro hok
  rw [Run_of_extractsAll hok]
  rfl

theorem extraction_order_witness :
    ExtractsAll mixedEnv ["proj"] ∧
      (Run mixedEnv ["proj"] true).trace =
        ["proj"].flatMap (fun p =>
          Event.importDir p ::
            (goFilesForPkg mixedEnv p).map (fun n => Event.addFile (mixedEnv.Join p n))) :=
  ⟨by decide, (extraction_order mixedEnv ["proj"] true).2.1 (by decide)⟩

set_option maxRecDepth 100000 in
/-- C15, counterexample. For the three aliases `bar`, `baz`, `foo` of the test
project, each used once, the recommendation written by `Run` is
`... ("bar", "baz" and "foo" are all used once each)`, as importalias_test.go:336
expects, and not the text with a comma before `and`. -/
theorem serial_comma_counterexample :
    (Run threeEnv threePkgs false).writes.head? =
        some (Write.violation "proj/bar/bar.go" 1 21 "bar" "\"fmt\""
          "No consensus alias exists for this import in the project (\"bar\", \"baz\" and \"foo\" are all used once each)") ∧
      (GetAliasStatus (recorded threeEnv threePkgs) (AliasToken.explicit "bar") "\"fmt\"").Recommendation ≠
        "No consensus alias exists for this import in the project (\"bar\", \"baz\", and \"foo\" are all used once each)" := by
  decide

/-- C15, amended. For every tie on import path `P`, with the distinct explicit
aliases of `P` in ascending order `init ++ [last]`, the alias list of the
recommendation is the quoted aliases of `init` joined by `", "`, then `" and "`,
then the quoted `last`, with no comma before `and` however many aliases there
are; for exactly two aliases the two are joined by `" and "` alone. -/
theorem tie_list (env : Env) (pkgPaths : List String) (hok : ExtractsAll env pkgPaths)
    (P a b : String) (hab : a ≠ b)
    (ha : ImportedAs (recorded env pkgPaths) P a) (hb : ImportedAs (recorded env pkgPaths) P b)
    (hcnt : aliasCount (recorded env pkgPaths) P a = aliasCount (recorded env pkgPaths) P b)
    (hmax : ∀ c, ImportedAs (recorded env pkgPaths) P c →
      aliasCount (recorded env pkgPaths) P c ≤ aliasCount (recorded env pkgPaths) P a)
    (init : List String) (last : String)
    (hnames : sortStrings (explicitAliases (recorded env pkgPaths) P) = init ++ [last]) :
    init ≠ [] ∧
    (∀ f l c al r, Write.violation f l c al P r ∈ (Run env pkgPaths false).writes →
      r = "No consensus alias exists for this import in the project (" ++
        (", ".intercalate (init.map quote) ++ " and " ++ quote last) ++ " are " ++
        (if init.length = 1 then "both" else "all") ++ " used " ++
        countPhrase (aliasCount (recorded env pkgPaths) P a) ++ " each)") ∧
    (∀ x, init = [x] →
      ", ".intercalate (init.map quote) ++ " and " ++ quote last =
        quote x ++ " and " ++ quote last) ∧
    (∀ x y, init = [x, y] →
      ", ".intercalate (init.map quote) ++ " and " ++ quote last =
        quote x ++ ", " ++ quote y ++ " and " ++ quote last) := by
  have hsorted := sorted_explicitAliases (recorded env pkgPaths) P
  rw [hnames] at hsorted
  have hinit : init ≠ [] := by
    rintro rfl
    have h1 : a = last := by simpa using (hsorted.2 a).mpr ha
    have h2 : b = last := by simpa using (hsorted.2 b).mpr hb
    exact hab (h1.trans h2.symm)
  refine ⟨hinit, ?_, ?_, ?_⟩
  · intro f l c al r hmem
    obtain ⟨o, _, _, hnok, he⟩ := mem_Run_default hok hmem
    simp only [Write.violation.injEq] at he
    obtain ⟨_, _, _, _, hp, hr⟩ := he
    cases hal : o.Alias with
    | explicit x =>
      rw [hal, ← hp, GetAliasStatus_tie hab ha hb hcnt hmax x, hnames] at hr
      rw [hr]
      simp only [noConsensus, List.map_append, List.map_cons, List.map_nil]
      rw [englishList_append_singleton _ _ (by simpa using hinit)]
      have e : ((init ++ [last]).length = 2) ↔ (init.length = 1) := by
        simp only [List.length_append, List.length_cons, List.length_nil]
        omega
      simp only [e]
    | default => rw [hal] at hnok; simp [GetAliasStatus] at hnok
    | blank => rw [hal] at hnok; simp [GetAliasStatus] at hnok
    | dotImport => rw [hal] at hnok; simp [GetAliasStatus] at hnok
  · rintro x rfl
    rfl
  · rintro x y rfl
    apply String.ext
    simp [String.intercalate, String.intercalate.go, String.data_append, List.append_assoc]

set_option maxRecDepth 100000 in
theorem tie_list_witness :
    ExtractsAll threeEnv threePkgs ∧
      "No consensus alias exists for this import in the project (\"bar\", \"baz\" and \"foo\" are all used once each)" =
        "No consensus alias exists for this import in the project (" ++
          (", ".intercalate (["bar", "baz"].map quote) ++ " and " ++ quote "foo") ++ " are " ++
          (if ["bar", "baz"].length = 1 then "both" else "all") ++ " used " ++
          countPhrase (aliasCount (recorded threeEnv threePkgs) "\"fmt\"" "bar") ++ " each)" :=
  ⟨by decide, (tie_list threeEnv threePkgs (by decide) "\"fmt\"" "bar" "baz" (by decide)
    (by decide) (by decide) (by decide)
    (fun c hc =>
      (by decide : ∀ c ∈ explicitAliases (recorded threeEnv threePkgs) "\"fmt\"",
        aliasCount (recorded threeEnv threePkgs) "\"fmt\"" c ≤
          aliasCount (recorded threeEnv threePkgs) "\"fmt\"" "bar")
        c (mem_explicitAliases.mpr hc))
    ["bar", "baz"] "foo" (by decide)).2.1 "proj/baz/baz.go" 1 21 "baz"
      "No consensus alias exists for this import in the project (\"bar\", \"baz\" and \"foo\" are all used once each)"
      (by decide)⟩

instance (env : Env) (q : String) : Decidable (NoGoFiles env q) :=
  inferInstanceAs (Decidable ((env.ImportDir q).GoFiles = [] ∧
    (env.ImportDir q).TestGoFiles = [] ∧ (env.ImportDir q).XTestGoFiles = []))

theorem goFilesForPkg_of_noGoFiles {env : Env} {q : String} (h : NoGoFiles env q) :
    goFilesForPkg env q = [] := by
  unfold goFilesForPkg
  rw [h.1, h.2.1, h.2.2]
  rfl

/-- A package without files leaves the registry and the outcome of loading as
they are. -/
theorem loadPkgs_insert_empty {env : Env} {q : String} (h : NoGoFiles env q)
    (pre post : List String) (reg : Registry) :
    (loadPkgs env (pre ++ q :: post) reg).2 = (loadPkgs env (pre ++ post) reg).2 := by
  induction pre generalizing reg with
  | nil =>
    simp only [List.nil_append, loadPkgs, goFilesForPkg_of_noGoFiles h, loadFiles]
  | cons p ps ih =>
    simp only [List.cons_append, loadPkgs]
    cases hl : loadFiles env p (goFilesForPkg env p) reg with
    | mk tr res =>
      cases res with
      | error e => rfl
      | ok reg' => exact ih reg'

theorem Run_writes_err (env : Env) (pkgPaths : List String) (verbose : Bool) :
    ((Run env pkgPaths verbose).writes, (Run env pkgPaths verbose).err) =
      match (loadPkgs env pkgPaths []).2 with
      | .error e => ([], some e)
      | .ok reg => report reg verbose := by
  unfold Run
  cases hl : loadPkgs env pkgPaths [] with
  | mk tr res =>
    cases res with
    | error e => rfl
    | ok reg => rfl

/-- C16. Adding, anywhere in the list of package paths, a package path that
yields no Go source file (such as the empty path, the failure of whose load `Run`
ignores) changes neither the writes and output of `Run` nor the error it returns,
in both modes and whether or not some extraction fails. -/
theorem empty_package_irrelevant (env : Env) (q : String) (hq : NoGoFiles env q)
    (pre post : List String) (verbose : Bool) :
    (Run env (pre ++ q :: post) verbose).writes = (Run env (pre ++ post) verbose).writes ∧
      (Run env (pre ++ q :: post) verbose).output = (Run env (pre ++ post) verbose).output ∧
      (Run env (pre ++ q :: post) verbose).err = (Run env (pre ++ post) verbose).err := by
  have h := Run_writes_err env (pre ++ q :: post) verbose
  rw [loadPkgs_insert_empty hq pre post [], ← Run_writes_err env (pre ++ post) verbose] at h
  have hw := congrArg Prod.fst h
  have he := congrArg Prod.snd h
  simp only at hw he
  refine ⟨hw, ?_, he⟩
  unfold Result.output
  rw [hw]

set_option maxRecDepth 100000 in
theorem empty_package_irrelevant_witness :
    NoGoFiles multiEnv "" ∧
      (Run multiEnv (["proj/other", "proj", "proj/baz", "proj/bar"] ++ "" :: []) false).output =
        (Run multiEnv (["proj/other", "proj", "proj/baz", "proj/bar"] ++ []) false).output :=
  ⟨by decide, (empty_package_irrelevant multiEnv "" (by decide)
    ["proj/other", "proj", "proj/baz", "proj/bar"] [] false).2.1⟩

theorem wrapErr_ne_empty (e f : String) : wrapErr e f ≠ "" := by
  intro h
  have hlen : (wrapErr e f).length = 0 := by rw [h]; rfl
  simp only [wrapErr, String.length_append] at hlen
  have : "failed to determine imports in file ".length = 36 := by decide
  omega

/-- C17. When every file extracts, the error of `Run` is nil or has the empty
message, and it has the empty message exactly when some import path is
conflicted. When some extraction fails, the message of the error is
`failed to determine imports in file <file>: <cause>` for a file of the run whose
extraction fails, which is not the empty message, and nothing is written: the
two failures are told apart by the message and no run has both. -/
theorem error_kinds (env : Env) (pkgPaths : List String) (verbose : Bool) :
    (ExtractsAll env pkgPaths →
      ((Run env pkgPaths verbose).err = some "" ↔ ∃ p, Conflicted (recorded env pkgPaths) p) ∧
      ((Run env pkgPaths verbose).err = none ↔ ∀ p, ¬ Conflicted (recorded env pkgPaths) p)) ∧
    (¬ ExtractsAll env pkgPaths →
      ∃ f e, f ∈ filesInOrder env pkgPaths ∧ env.parseImports f = Except.error e ∧
        (Run env pkgPaths verbose).err =
          some ("failed to determine imports in file " ++ f ++ ": " ++ e) ∧
        (Run env pkgPaths verbose).err ≠ some "" ∧
        (Run env pkgPaths verbose).writes = []) := by
  constructor
  · intro hok
    refine ⟨?_, Run_err_eq_none_iff hok verbose⟩
    have hnone := Run_err_eq_none_iff hok verbose
    have herr := Run_err hok verbose
    constructor
    · intro h
      by_contra hc
      have : (Run env pkgPaths verbose).err = none := hnone.mpr (fun p hp => hc ⟨p, hp⟩)
      rw [this] at h
      cases h
    · rintro ⟨p, hp⟩
      have hne : pkgsWithMultipleAliases (ImportsToAliases (recorded env pkgPaths)) ≠ [] := by
        intro e
        have := mem_pkgsWithMultipleAliases.mpr hp
        rw [e] at this
        cases this
      rw [herr, if_neg hne]
  · intro hfail
    rcases loadPkgs_spec env pkgPaths [] with
      ⟨hall, _⟩ | ⟨pre, f, post, e, tr, rest, hsplit, _, herr, hres, _, _, _⟩
    · exact absurd (fun f hf => extractOK_iff.mpr (hall f hf)) hfail
    · have hrun : Run env pkgPaths verbose = Result.mk [] (some (wrapErr e f)) tr := by
        unfold Run
        rw [hres]
      refine ⟨f, e, by rw [hsplit]; simp, herr, ?_, ?_, ?_⟩
      · rw [hrun]
        rfl
      · rw [hrun]
        intro h
        exact wrapErr_ne_empty e f (Option.some.inj h)
      · rw [hrun]

theorem error_kinds_witness :
    ¬ ExtractsAll failEnv ["proj", "proj/z"] ∧
      ∃ f e, f ∈ filesInOrder failEnv ["proj", "proj/z"] ∧
        failEnv.parseImports f = Except.error e ∧
        (Run failEnv ["proj", "proj/z"] false).err =
          some ("failed to determine imports in file " ++ f ++ ": " ++ e) ∧
        (Run failEnv ["proj", "proj/z"] false).err ≠ some "" ∧
        (Run failEnv ["proj", "proj/z"] false).writes = [] :=
  ⟨by decide, (error_kinds failEnv ["proj", "proj/z"] false).2 (by decide)⟩

theorem mapInsert_mem {α : Type} (m : List (String × α)) (k : String) (v : α)
    (kv : String × α) (h : kv ∈ mapInsert m k v) : kv = (k, v) ∨ kv ∈ m := by
  induction m with
  | nil =>
    simp only [mapInsert, List.mem_singleton] at h
    exact Or.inl h
  | cons x xs ih =>
    obtain ⟨xk, xv⟩ := x
    simp only [mapInsert] at h
    by_cases e : xk = k
    · rw [if_pos e] at h
      rcases List.mem_cons.mp h with h | h
      · exact Or.inl h
      · exact Or.inr (List.mem_cons_of_mem _ h)
    · rw [if_neg e] at h
      rcases List.mem_cons.mp h with h | h
      · exact Or.inr (by rw [h]; simp)
      · rcases ih h with h | h
        · exact Or.inl h
        · exact Or.inr (List.mem_cons_of_mem _ h)

theorem foldl_occurrences_mem (importPath a : String) (l : Registry)
    (m : List (String × Position)) (kv : String × Position)
    (h : kv ∈ l.foldl (fun m o =>
      if o.ImportPath = importPath ∧ o.Alias = AliasToken.explicit a then
        mapInsert m o.file o.Pos else m) m) :
    kv ∈ m ∨ ∃ o ∈ l, (o.ImportPath = importPath ∧ o.Alias = AliasToken.explicit a) ∧
      o.file = kv.1 ∧ o.Pos = kv.2 := by
  induction l generalizing m with
  | nil => exact Or.inl h
  | cons x xs ih =>
    simp only [List.foldl_cons] at h
    rcases ih _ h with h' | ⟨o, ho, hmo, hf⟩
    · by_cases hx : x.ImportPath = importPath ∧ x.Alias = AliasToken.explicit a
      · rw [if_pos hx] at h'
        rcases mapInsert_mem m _ _ kv h' with e | hm
        · exact Or.inr ⟨x, by simp, hx, by rw [e], by rw [e]⟩
        · exact Or.inl hm
      · rw [if_neg hx] at h'
        exact Or.inl h'
    · exact Or.inr ⟨o, by simp [ho], hmo, hf⟩

/-- Every entry of the `Occurrences` map of an alias is the file and position of
an import of the path under that alias. -/
theorem mem_occurrencesOf {reg : Registry} {importPath a : String} {kv : String × Position}
    (h : kv ∈ occurrencesOf reg importPath a) :
    ∃ o ∈ reg, o.ImportPath = importPath ∧ o.Alias = AliasToken.explicit a ∧
      o.file = kv.1 ∧ o.Pos = kv.2 := by
  rcases foldl_occurrences_mem importPath a reg [] kv h with h' | ⟨o, ho, hmo, hf⟩
  · cases h'
  · exact ⟨o, ho, hmo.1, hmo.2, hf.1, hf.2⟩

/-- Every file that imports the path under the alias has an entry in the map. -/
theorem exists_occurrencesOf {reg : Registry} {o : ImportOccurrence} {a : String}
    (ho : o ∈ reg) (ha : o.Alias = AliasToken.explicit a) :
    ∃ pos, (o.file, pos) ∈ occurrencesOf reg o.ImportPath a := by
  have hk : o.file ∈ (occurrencesOf reg o.ImportPath a).map (fun kv => kv.1) := by
    rw [(occurrencesOf_keys reg o.ImportPath a).mem_iff]
    unfold filesOf
    rw [List.mem_dedup, List.mem_map]
    exact ⟨o, List.mem_filter.mpr ⟨ho, by simp [ha]⟩, rfl⟩
  obtain ⟨kv, hkv, hf⟩ := List.mem_map.mp hk
  refine ⟨kv.2, ?_⟩
  have : (o.file, kv.2) = kv := by rw [← hf]
  rw [this]
  exact hkv

theorem flatMap_split {α β : Type} {l : List α} {x : α} (h : x ∈ l) (g : α → List β) :
    ∃ before after, l.flatMap g = before ++ g x ++ after := by
  obtain ⟨l₁, l₂, rfl⟩ := List.append_of_mem h
  exact ⟨l₁.flatMap g, l₂.flatMap g, by simp [List.flatMap_append, List.flatMap_cons]⟩

theorem Run_writes_of_fail {env : Env} {pkgPaths : List String} (h : ¬ ExtractsAll env pkgPaths)
    (verbose : Bool) : (Run env pkgPaths verbose).writes = [] := by
  rcases loadPkgs_spec env pkgPaths [] with ⟨hall, _⟩ | ⟨_, f, _, e, tr, _, _, _, _, hres, _, _, _⟩
  · exact absurd (fun f hf => extractOK_iff.mpr (hall f hf)) h
  · unfold Run
    rw [hres]

theorem report_eq_reportOn (reg : Registry) (verbose : Bool) :
    report reg verbose = reportOn reg (ImportsToAliases reg) (FilesToImportAliases reg) verbose :=
  rfl

theorem mapGet_perm {α : Type} {m m' : List (String × List α)} (h : m.Perm m')
    (hnd : (m.map (fun kv => kv.1)).Nodup) (k : String) : mapGet m k = mapGet m' k := by
  induction h with
  | nil => rfl
  | cons x _ ih =>
    obtain ⟨xk, xv⟩ := x
    simp only [List.map_cons, List.nodup_cons] at hnd
    simp only [mapGet]
    rw [ih hnd.2]
  | swap x y l =>
    obtain ⟨xk, xv⟩ := x
    obtain ⟨yk, yv⟩ := y
    simp only [List.map_cons, List.nodup_cons, List.mem_cons, not_or] at hnd
    simp only [mapGet]
    by_cases hx : xk = k
    · by_cases hy : yk = k
      · exact absurd (hy.trans hx.symm) hnd.1.1
      · simp [hx, hy]
    · by_cases hy : yk = k
      · simp [hx, hy]
      · simp [hx, hy]
  | trans h₁ _ ih₁ ih₂ =>
    rw [ih₁ hnd, ih₂ ((h₁.map _).nodup_iff.mp hnd)]

theorem groupWrite_congr {x y : AliasInfo} (h : SameAlias x y) : groupWrite x = groupWrite y := by
  obtain ⟨ha, hp⟩ := h
  have h₁ : numFilesMsg x = numFilesMsg y := by
    unfold numFilesMsg
    rw [hp.length_eq]
  have h₂ : occurrenceLines x = occurrenceLines y := by
    unfold occurrenceLines
    exact sortStrings_eq_of_perm (hp.map _)
  unfold groupWrite
  rw [ha, h₁, h₂]

theorem map_groupWrite_congr {l l' : List AliasInfo} (h : List.Forall₂ SameAlias l l') :
    l.map groupWrite = l'.map groupWrite := by
  induction h with
  | nil => rfl
  | cons hxy _ ih => simp only [List.map_cons, groupWrite_congr hxy, ih]

theorem mapGet_forall₂ {m m' : List (String × List AliasInfo)}
    (h : List.Forall₂ SameEntry m m') (k : String) :
    List.Forall₂ SameAlias (mapGet m k) (mapGet m' k) := by
  induction h with
  | nil => exact List.Forall₂.nil
  | @cons e e' _ _ he _ ih =>
    obtain ⟨ek, ev⟩ := e
    obtain ⟨ek', ev'⟩ := e'
    obtain ⟨hk, hv⟩ := he
    simp only at hk hv
    subst hk
    simp only [mapGet]
    by_cases hx : ek = k
    · simp only [if_pos hx]
      exact hv
    · simp only [if_neg hx]
      exact ih

theorem filter_keys_forall₂ {m m' : List (String × List AliasInfo)}
    (h : List.Forall₂ SameEntry m m') :
    (m.filter (fun kv => decide (kv.2.length > 1))).map (fun kv => kv.1) =
      (m'.filter (fun kv => decide (kv.2.length > 1))).map (fun kv => kv.1) := by
  induction h with
  | nil => rfl
  | @cons e e' _ _ he _ ih =>
    obtain ⟨hk, hv⟩ := he
    have hlen : e.2.length = e'.2.length := hv.length_eq
    by_cases hl : e.2.length > 1
    · have hl' : e'.2.length > 1 := hlen ▸ hl
      simp only [List.filter_cons, hl, hl', decide_True, if_true, List.map_cons, hk, ih]
    · have hl' : ¬ e'.2.length > 1 := hlen ▸ hl
      simp only [List.filter_cons, hl, hl', decide_False]
      exact ih

theorem pkgsWithMultipleAliases_congr {m m' : List (String × List AliasInfo)}
    (h : SameImports m m') : pkgsWithMultipleAliases m = pkgsWithMultipleAliases m' := by
  obtain ⟨mid, hperm, hall⟩ := h
  unfold pkgsWithMultipleAliases
  rw [← filter_keys_forall₂ hall]
  exact sortStrings_eq_of_perm ((hperm.filter _).map _)

theorem mapGet_groupWrite_congr {m m' : List (String × List AliasInfo)}
    (h : SameImports m m') (hnd : (m.map (fun kv => kv.1)).Nodup) (k : String) :
    (mapGet m k).map groupWrite = (mapGet m' k).map groupWrite := by
  obtain ⟨mid, hperm, hall⟩ := h
  rw [mapGet_perm hperm hnd k]
  exact map_groupWrite_congr (mapGet_forall₂ hall k)

theorem reportOn_congr (reg : Registry) {m m' : List (String × List AliasInfo)}
    {fm fm' : List (String × List AliasSpec)} (h : SameImports m m')
    (hnd : (m.map (fun kv => kv.1)).Nodup) (hf : fm.Perm fm')
    (hfnd : (fm.map (fun kv => kv.1)).Nodup) (verbose : Bool) :
    reportOn reg m' fm' verbose = reportOn reg m fm verbose := by
  unfold reportOn verboseWrites
  rw [← pkgsWithMultipleAliases_congr h, ← sortStrings_eq_of_perm (hf.map _)]
  have h₁ : (fun k => Write.header k :: (mapGet m' k).map groupWrite) =
      (fun k => Write.header k :: (mapGet m k).map groupWrite) := by
    funext k
    rw [mapGet_groupWrite_congr h hnd k]
  have h₂ : (fun file => (mapGet fm' file).filterMap
        (violationOf reg (pkgsWithMultipleAliases m) file)) =
      (fun file => (mapGet fm file).filterMap
        (violationOf reg (pkgsWithMultipleAliases m) file)) := by
    funext file
    rw [mapGet_perm hf hfnd file]
  rw [h₁, h₂]

/-- C13. For a fixed registry and each render mode, the writes of `Run`, hence its
output bytes, and its outcome do not depend on the order in which the maps of the
registry are iterated: whatever the order of the entries of the map from import
path to aliases, of the `Occurrences` map of each alias, and of the map from file
to occurrences, the report is the one `Run` makes. -/
theorem iteration_order_irrelevant (env : Env) (pkgPaths : List String) (verbose : Bool)
    (hok : ExtractsAll env pkgPaths)
    (importsToAliases : List (String × List AliasInfo))
    (filesToAliases : List (String × List AliasSpec))
    (hi : SameImports (ImportsToAliases (recorded env pkgPaths)) importsToAliases)
    (hf : (FilesToImportAliases (recorded env pkgPaths)).Perm filesToAliases) :
    reportOn (recorded env pkgPaths) importsToAliases filesToAliases verbose =
        ((Run env pkgPaths verbose).writes, (Run env pkgPaths verbose).err) ∧
      String.join ((reportOn (recorded env pkgPaths) importsToAliases filesToAliases
        verbose).1.map Write.render) = (Run env pkgPaths verbose).output := by
  have h : reportOn (recorded env pkgPaths) importsToAliases filesToAliases verbose =
      ((Run env pkgPaths verbose).writes, (Run env pkgPaths verbose).err) := by
    rw [Run_of_extractsAll hok, report_eq_reportOn]
    exact reportOn_congr _ hi (by rw [ImportsToAliases_keys]; exact List.nodup_dedup _) hf
      (by rw [FilesToImportAliases_keys]; exact List.nodup_dedup _) verbose
  refine ⟨h, ?_⟩
  rw [h]
  rfl

theorem sameAlias_refl (l : List AliasInfo) : List.Forall₂ SameAlias l l := by
  induction l with
  | nil => exact List.Forall₂.nil
  | cons x xs ih => exact List.Forall₂.cons ⟨rfl, List.Perm.refl _⟩ ih

theorem sameEntry_refl (m : List (String × List AliasInfo)) : List.Forall₂ SameEntry m m := by
  induction m with
  | nil => exact List.Forall₂.nil
  | cons x xs ih => exact List.Forall₂.cons ⟨rfl, sameAlias_refl _⟩ ih

theorem sameImports_reverse (m : List (String × List AliasInfo)) : SameImports m m.reverse :=
  ⟨m.reverse, (List.reverse_perm m).symm, sameEntry_refl _⟩

set_option maxRecDepth 100000 in
theorem iteration_order_irrelevant_witness :
    ExtractsAll multiEnv multiPkgs ∧
      (ImportsToAliases (recorded multiEnv multiPkgs)).reverse ≠
        ImportsToAliases (recorded multiEnv multiPkgs) ∧
      reportOn (recorded multiEnv multiPkgs) (ImportsToAliases (recorded multiEnv multiPkgs)).reverse
          (FilesToImportAliases (recorded multiEnv multiPkgs)).reverse true =
        ((Run multiEnv multiPkgs true).writes, (Run multiEnv multiPkgs true).err) :=
  ⟨by decide, by decide,
    (iteration_order_irrelevant multiEnv multiPkgs true (by decide) _ _
      (sameImports_reverse _) (List.reverse_perm _).symm).1⟩

end Importalias
